import Mathlib

/-!
Verification of the structured-extraction and live-translation core of the
`language-enforcer` repository (TUI crate, `src/tui/src/main.rs`) against its
natural-language specification.

Shallow embedding conventions used throughout this development:

* Rust `String` / `&str` values are modelled as `List Char` (Rust strings are
  sequences of Unicode scalar values, as is `Char` here).  `trim`,
  `strip_prefix`, `replace`, `trim_end_matches` are defined below, faithful to
  the `std` behaviour on that representation.
* `f32` values (bounding-box coordinates, heights, centroids) are modelled as
  exact rationals `ℚ`.  The clustering / heading heuristics only add, subtract,
  multiply, divide by nonzero counts and compare, so the algorithmic structure
  is preserved exactly; f32 rounding is abstracted away.
* `std::time::Instant` is modelled as a natural number of milliseconds on the
  monotone clock; `t.elapsed()` at time `now` is `now - t` (truncated
  subtraction, which agrees with the source because the clock is monotone).
* The external translation HTTP capability is a parameter
  `api : Translator`, giving for each batch of texts either a descriptive
  failure or a list of translations, exactly the observable behaviour of the
  network call inside `translate_batch_via_api`.
* The vocabulary store (`Db`) is modelled as the list of saved words; SQLite's
  `lower()` (used by `word_exists`) folds ASCII letters only, which
  `sqliteLower` reproduces.
* Character classes from the Rust standard library: `char::is_whitespace` is
  the Unicode `White_Space` property, reproduced exactly in
  `rustIsWhitespace`; `char::is_uppercase` is modelled by `rustIsUppercase`
  on the Basic Latin and Latin-1 ranges (the alphabet this program's Dutch and
  English inputs exercise), and the theorems below use that one predicate on
  both the code side and the specification side, so none of them depends on
  the extent of its table.
-/

/-- The Unicode White_Space property, the set recognised by Rust's
`char::is_whitespace` (and hence by `str::trim`). -/
def rustIsWhitespace (c : Char) : Bool :=
  c = ' ' || (0x09 ≤ c.val && c.val ≤ 0x0d) || c.val = 0x85 || c.val = 0xa0 ||
  c.val = 0x1680 || (0x2000 ≤ c.val && c.val ≤ 0x200a) ||
  c.val = 0x2028 || c.val = 0x2029 || c.val = 0x202f || c.val = 0x205f ||
  c.val = 0x3000

/-- Rust's `char::is_uppercase`, restricted to Basic Latin plus Latin-1
(`A`–`Z`, `À`–`Ö`, `Ø`–`Þ`); identity elsewhere is irrelevant to the theorems
below, which use this same predicate on both sides. -/
def rustIsUppercase (c : Char) : Bool :=
  (0x41 ≤ c.val && c.val ≤ 0x5a) || (0xc0 ≤ c.val && c.val ≤ 0xd6) ||
  (0xd8 ≤ c.val && c.val ≤ 0xde)

/-- SQLite's `lower()` function: ASCII-only lowercasing (used by the
`word_exists` query `lower(text) = lower(?1)`). -/
def sqliteLowerChar (c : Char) : Char :=
  if 0x41 ≤ c.val && c.val ≤ 0x5a then Char.ofNat (c.toNat + 32) else c

def sqliteLower (s : List Char) : List Char :=
  s.map sqliteLowerChar

/-- Rust's `str::to_lowercase`, modelled on the ASCII range (identity beyond);
only consumed by the chapter-marker filter, whose match tokens are ASCII. -/
def rustLowerChar (c : Char) : Char :=
  if 0x41 ≤ c.val && c.val ≤ 0x5a then Char.ofNat (c.toNat + 32) else c

def rustToLowercase (s : List Char) : List Char :=
  s.map rustLowerChar

/-- `str::trim_start`. -/
def trimLeft (s : List Char) : List Char :=
  s.dropWhile rustIsWhitespace

/-- `str::trim_end`. -/
def trimRight (s : List Char) : List Char :=
  (s.reverse.dropWhile rustIsWhitespace).reverse

/-- `str::trim` (removes leading and trailing Unicode whitespace). -/
def rustTrim (s : List Char) : List Char :=
  trimRight (trimLeft s)

/-- `str::strip_prefix(p).unwrap_or(s)`: drop `p` from the front when it is a
prefix, otherwise return the string unchanged. -/
def stripLead (p s : List Char) : List Char :=
  if p.isPrefixOf s then s.drop p.length else s

/-- `str::replace('.', ",")` and friends: pointwise character replacement. -/
def replaceChar (a b : Char) (s : List Char) : List Char :=
  s.map fun c => if c = a then b else c

/-- `str::trim_end_matches(c)`: remove every trailing occurrence of `c`. -/
def trimEndMatches (c : Char) (s : List Char) : List Char :=
  (s.reverse.dropWhile (· = c)).reverse

/-- `str::contains(c)` for a single character pattern. -/
def containsChar (s : List Char) (c : Char) : Bool :=
  s.contains c

/-- `source/tui`: `fn normalize_item_text(text: &str) -> String`
(trim, strip a leading `"- "`, strip a leading `" "`, trim, replace every
`'.'` with `','`). -/
def normalize_item_text (text : List Char) : List Char :=
  let trimmed := rustTrim text
  let trimmed := stripLead ('-' :: ' ' :: []) trimmed
  let trimmed := stripLead (' ' :: []) trimmed
  replaceChar '.' ',' (rustTrim trimmed)

/-- `source/tui`: `fn normalize_heading(text: &str) -> String`
(`text.trim_end_matches(':').trim().to_string()`). -/
def normalize_heading (text : List Char) : List Char :=
  rustTrim (trimEndMatches ':' text)

/-- `struct OcrBBox { x, y, w, h: f32 }` (normalized [0,1] coordinates). -/
structure OcrBBox where
  x : ℚ
  y : ℚ
  w : ℚ
  h : ℚ
deriving DecidableEq

/-- `struct OcrLine { text: String, bbox: OcrBBox, confidence: f32 }`. -/
structure OcrLine where
  text : List Char
  bbox : OcrBBox
  confidence : ℚ
deriving DecidableEq

/-- `struct LineEntry { text: String, x: f32, y_top: f32, height: f32 }`. -/
structure LineEntry where
  text : List Char
  x : ℚ
  y_top : ℚ
  height : ℚ
deriving DecidableEq

/-- `struct ColumnBucket { center: f32, lines: Vec<LineEntry> }`. -/
structure ColumnBucket where
  center : ℚ
  lines : List LineEntry
deriving DecidableEq

/-- `ColumnBucket::new(entry)`. -/
def ColumnBucket.new (entry : LineEntry) : ColumnBucket :=
  { center := entry.x, lines := [entry] }

/-- `ColumnBucket::add(&mut self, entry)`: incremental-mean centroid update
`center = (center * count + entry.x) / (count + 1)`, then push. -/
def ColumnBucket.add (b : ColumnBucket) (entry : LineEntry) : ColumnBucket :=
  let count : ℚ := b.lines.length
  { center := (b.center * count + entry.x) / (count + 1), lines := b.lines ++ [entry] }

/-- `struct ImportItem { text: String, group: String }`. -/
structure ImportItem where
  text : List Char
  group : List Char
deriving DecidableEq

/-- `str::contains(pat)` for a string pattern: substring containment. -/
def isInfixOfL (p : List Char) : List Char → Bool
  | [] => p.isEmpty
  | c :: rest => p.isPrefixOf (c :: rest) || isInfixOfL p rest

/-- `fn looks_like_chapter_line(text: &str) -> bool`. -/
def looks_like_chapter_line (text : List Char) : Bool :=
  let lowered := rustToLowercase text
  if isInfixOfL ("hoofdstuk".data) lowered || isInfixOfL ("chapter".data) lowered ||
      isInfixOfL ("hoolastuk".data) lowered then
    true
  else if ("hoo".data).isPrefixOf lowered && isInfixOfL ("stuk".data) lowered then
    true
  else
    false

/-- `fn looks_like_page_number(text: &str) -> bool`. -/
def looks_like_page_number (text : List Char) : Bool :=
  let trimmed := rustTrim text
  if trimmed.isEmpty then false
  else if trimmed.all (·.isDigit) then true
  else if trimmed.length ≤ 3 && trimmed.all (·.isDigit) then true
  else false

/-- `fn median(mut values: Vec<f32>) -> f32`: sort, then the middle element or
the average of the two middle elements (`0.0` for an empty vector). -/
def median (values : List ℚ) : ℚ :=
  if values.isEmpty then 0
  else
    let sorted := values.mergeSort (· ≤ ·)
    let mid := values.length / 2
    if values.length % 2 = 0 then (sorted.getD (mid - 1) 0 + sorted.getD mid 0) / 2
    else sorted.getD mid 0

/-- `fn is_heading(entry: &LineEntry, median_height: f32) -> bool`. -/
def is_heading (entry : LineEntry) (median_height : ℚ) : Bool :=
  let text := rustTrim entry.text
  if text.isEmpty then false
  else if containsChar text ',' || containsChar text '-' ||
      containsChar text '(' || containsChar text ')' then false
  else
    match text with
    | [] => false
    | first :: rest =>
      if !rustIsUppercase first then false
      else if rest.any rustIsUppercase then false
      else if median_height > 0 then
        if containsChar text ' ' then decide (entry.height ≥ median_height * (115/100))
        else decide (entry.height ≥ median_height * (8/10))
      else false

/-- Replace the element at index `i` (out-of-range indices leave the list
unchanged); models the in-place `columns[idx].add(entry)` mutation. -/
def updateAt (i : ℕ) (f : α → α) : List α → List α
  | [] => []
  | x :: xs => match i with
    | 0 => f x :: xs
    | n + 1 => x :: updateAt n f xs

/-- The `best_index`/`best_distance` loop of `split_into_columns`: walk the
buckets in order keeping the strictly smallest distance seen so far (so ties
keep the earlier bucket); `idx` is the index of the head of the remaining
list, `best` the accumulator. -/
def bestBucketAux (x : ℚ) : ℕ → Option (ℕ × ℚ) → List ColumnBucket → Option (ℕ × ℚ)
  | _, best, [] => best
  | idx, best, column :: rest =>
    let distance := |x - column.center|
    let best := match best with
      | none => some (idx, distance)
      | some q => if distance < q.2 then some (idx, distance) else best
    bestBucketAux x (idx + 1) best rest

/-- The best-bucket search inside `split_into_columns` (index of the bucket
with the smallest centroid distance, and that distance). -/
def bestBucket (x : ℚ) (columns : List ColumnBucket) : Option (ℕ × ℚ) :=
  bestBucketAux x 0 none columns

/-- The first-occurring minimum-distance bucket, written as a structural
recursion (the form the correctness lemmas are proved against; shown equal to
`bestBucket`). -/
def specBest (x : ℚ) : List ColumnBucket → Option (ℕ × ℚ)
  | [] => none
  | column :: rest =>
    let d := |x - column.center|
    match specBest x rest with
    | none => some (0, d)
    | some (j, e) => if d ≤ e then some (0, d) else some (j + 1, e)

/-- One iteration of the `for entry in sorted` loop of `split_into_columns`:
assign `entry` to the nearest bucket when its distance is at most the
threshold `0.08`, updating the centroid via `ColumnBucket.add`; otherwise
append a fresh bucket. -/
def clusterStep (columns : List ColumnBucket) (entry : LineEntry) : List ColumnBucket :=
  match bestBucket entry.x columns with
  | some (idx, d) =>
    if d ≤ 8/100 then updateAt idx (fun b => b.add entry) columns
    else columns ++ [ColumnBucket.new entry]
  | none => columns ++ [ColumnBucket.new entry]

/-- The bucket list built by `split_into_columns` before the final projection
to member lists: stable-sort the entries by ascending `x`, fold `clusterStep`,
then stable-sort the buckets by ascending final centroid.  (Rust's
`sort_by(partial_cmp)` is a stable sort by a total order here, which the
insertion sort reproduces.) -/
def split_into_columns_buckets (entries : List LineEntry) : List ColumnBucket :=
  let sorted := entries.insertionSort (fun a b => a.x ≤ b.x)
  let columns := sorted.foldl clusterStep []
  columns.insertionSort (fun a b => a.center ≤ b.center)

/-- `fn split_into_columns(entries) -> Vec<Vec<LineEntry>>`. -/
def split_into_columns (entries : List LineEntry) : List (List LineEntry) :=
  (split_into_columns_buckets entries).map (·.lines)

/-- The `filter_map` at the top of `parse_grouped_items`: trim the text, drop
empty lines, chapter markers and page numbers, and derive
`y_top = 1 - (bbox.y + bbox.h)`. -/
def lineEntryOf (line : OcrLine) : Option LineEntry :=
  let text := rustTrim line.text
  if text.isEmpty then none
  else if looks_like_chapter_line text || looks_like_page_number text then none
  else some { text := text, x := line.bbox.x, y_top := 1 - (line.bbox.y + line.bbox.h),
              height := line.bbox.h }

/-- The body of the `for entry in column` loop of `parse_grouped_items`,
threading the state `(current_group, items)`: skip entries whose normalized
text is empty, let headings update the current group (item normalization then
heading normalization), and emit every other entry tagged with the current
group (default `"Ungrouped"`). -/
def classifyStep (median_height : ℚ) (st : Option (List Char) × List ImportItem)
    (entry : LineEntry) : Option (List Char) × List ImportItem :=
  let normalized := normalize_item_text entry.text
  if normalized.isEmpty then st
  else if is_heading entry median_height then (some (normalize_heading normalized), st.2)
  else (st.1, st.2 ++ [{ text := normalized, group := st.1.getD ("Ungrouped".data) }])

/-- `fn parse_grouped_items(lines, initial_group) -> Result<Vec<ImportItem>>`.
The source's `Result` is always `Ok`, so the embedding returns the items
directly: filter/normalize the raw lines, compute the median height over the
full entry set, split into columns, sort each column by ascending `y_top`
(stable), and classify top to bottom threading the current group across
columns. -/
def parse_grouped_items (lines : List OcrLine) (initial_group : Option (List Char)) :
    List ImportItem :=
  let entries := lines.filterMap lineEntryOf
  if entries.isEmpty then []
  else
    let median_height := median (entries.map (·.height))
    let columns := split_into_columns entries
    (columns.foldl
      (fun st column =>
        (column.insertionSort (fun a b => a.y_top ≤ b.y_top)).foldl
          (classifyStep median_height) st)
      (initial_group, [])).2

/-- `enum Language` (`core` crate): the two languages the store records; named
`WordLanguage` here because Mathlib already claims `Language`. -/
inductive WordLanguage where
  | Dutch
  | English
deriving DecidableEq

/-- A row of the `words` table as far as the import is concerned. -/
structure StoredWord where
  text : List Char
  translation : List Char
  language : WordLanguage
  chapter : Option (List Char)
  group : Option (List Char)
deriving DecidableEq

/-- The vocabulary store: the list of saved words, in insertion order. -/
abbrev Store := List StoredWord

/-- `Db::word_exists(text, language)`: the SQL query
`SELECT 1 FROM words WHERE lower(text) = lower(?1) AND language = ?2` —
case-insensitive (SQLite ASCII `lower`) match on text and language. -/
def word_exists (db : Store) (text : List Char) (language : WordLanguage) : Bool :=
  db.any fun w => w.language = language && sqliteLower w.text = sqliteLower text

/-- `Db::save_word`: insert a new row. -/
def save_word (db : Store) (text translation : List Char) (language : WordLanguage)
    (chapter group : Option (List Char)) : Store :=
  let l : List StoredWord := db
  l ++ [{ text := text, translation := translation, language := language,
          chapter := chapter, group := group }]

/-- The observable behaviour of the translation HTTP capability: for a batch
of texts, either a descriptive failure (network error, non-success status,
unparsable body) or the list of translations the response carried. -/
abbrev Translator := List (List Char) → Except (List Char) (List (List Char))

/-- `fn translate_batch_via_api(api, texts, ...) -> Result<Vec<String>, String>`:
empty batches short-circuit to `Ok(vec![])` without calling the capability; a
response whose translation count differs from the input count is a hard
failure. -/
def translate_batch_via_api (api : Translator) (texts : List (List Char)) :
    Except (List Char) (List (List Char)) :=
  if texts.isEmpty then Except.ok []
  else
    match api texts with
    | Except.error e => Except.error e
    | Except.ok translations =>
      if translations.length ≠ texts.length then
        Except.error ("Translation API response count mismatch".data)
      else Except.ok translations

/-- Fuelled worker for `chunksOf` (structural recursion, so that the kernel
can evaluate it); the fuel only needs to dominate the list length. -/
def chunksOfFuel (n : ℕ) : ℕ → List α → List (List α)
  | 0, _ => []
  | _ + 1, [] => []
  | fuel + 1, x :: xs =>
    if n = 0 then []
    else (x :: xs).take n :: chunksOfFuel n fuel ((x :: xs).drop n)

/-- Contiguous chunks of at most `n` elements, preserving order: the
`index`/`end` slicing of the import loop (`n = 25` there). -/
def chunksOf (n : ℕ) (l : List α) : List (List α) :=
  chunksOfFuel n l.length l

/-- The per-chunk insert/skip loop of `import_from_image`: for each
`(item, translation)` pair, skip case-insensitive duplicates (incrementing
`skipped`), otherwise save the word with the chapter and its group
(incrementing `inserted`). -/
def processChunk (chapter : List Char) :
    List (ImportItem × List Char) → Store × ℕ × ℕ → Store × ℕ × ℕ
  | [], st => st
  | p :: rest, (db, inserted, skipped) =>
    if word_exists db p.1.text WordLanguage.Dutch then
      processChunk chapter rest (db, inserted, skipped + 1)
    else
      processChunk chapter rest
        (save_word db p.1.text p.2 WordLanguage.Dutch (some chapter) (some p.1.group),
         inserted + 1, skipped)

/-- The `while index < items.len()` loop of `import_from_image`, one step per
chunk: translate the chunk's texts in one call (`?` aborts the loop on
failure, keeping the store as committed so far) and then run the insert/skip
pass.  Returns the final `(inserted, skipped)` counters alongside the store. -/
def importLoop (api : Translator) (chapter : List Char) :
    List (List ImportItem) → Store × ℕ × ℕ → Except (List Char) (ℕ × ℕ) × Store
  | [], (db, inserted, skipped) => (Except.ok (inserted, skipped), db)
  | chunk :: rest, (db, inserted, skipped) =>
    match translate_batch_via_api api (chunk.map (·.text)) with
    | Except.error e => (Except.error e, db)
    | Except.ok translations =>
      importLoop api chapter rest (processChunk chapter (chunk.zip translations)
        (db, inserted, skipped))

/-- `fn import_from_image(db, api, image_path, chapter, provider, initial_group)
-> Result<usize, String>`, with the OCR capability's outcome for the image
passed in as `ocr` and the store threaded explicitly.  The source returns
`Ok(inserted)` — the `skipped` counter is only printed to stdout
(`println!("Skipped {skipped} duplicate words.")`), never returned. -/
def import_from_image (api : Translator) (ocr : Except (List Char) (List OcrLine))
    (chapter : List Char) (initial_group : Option (List Char)) (db : Store) :
    Except (List Char) ℕ × Store :=
  match ocr with
  | Except.error e => (Except.error e, db)
  | Except.ok lines =>
    let items := parse_grouped_items lines initial_group
    if items.isEmpty then (Except.ok 0, db)
    else
      match importLoop api chapter (chunksOf 25 items) (db, 0, 0) with
      | (Except.error e, db) => (Except.error e, db)
      | (Except.ok (inserted, _skipped), db) => (Except.ok inserted, db)

/-- The same run as `import_from_image`, exposing the pair of counters the
source maintains internally (`inserted` is returned by the source, `skipped`
is only printed). -/
def import_from_image_counts (api : Translator) (ocr : Except (List Char) (List OcrLine))
    (chapter : List Char) (initial_group : Option (List Char)) (db : Store) :
    Except (List Char) (ℕ × ℕ) × Store :=
  match ocr with
  | Except.error e => (Except.error e, db)
  | Except.ok lines =>
    let items := parse_grouped_items lines initial_group
    if items.isEmpty then (Except.ok (0, 0), db)
    else importLoop api chapter (chunksOf 25 items) (db, 0, 0)

/-- `enum Mode` (the TUI view the app is in). -/
inductive Mode where
  | Menu
  | AddWord
  | ReviewList
  | Confirm
  | Import
  | ImportPreview
  | ChapterSelect
  | Message
deriving DecidableEq

/-- `enum AddField`: the two inputs of the bilingual word-entry form. -/
inductive AddField where
  | Dutch
  | English
deriving DecidableEq

/-- `enum TranslateDirection`. -/
inductive TranslateDirection where
  | DutchToEnglish
  | EnglishToDutch
deriving DecidableEq

/-- `struct PendingTranslation { direction, source_text, started_at }`. -/
structure PendingTranslation where
  direction : TranslateDirection
  source_text : List Char
  started_at : ℕ
deriving DecidableEq

/-- Equality of `Result` values is decidable componentwise. -/
instance instDecEqExcept [DecidableEq α] [DecidableEq β] : DecidableEq (Except α β) := fun a b =>
  match a, b with
  | Except.ok x, Except.ok y =>
    if h : x = y then Decidable.isTrue (by rw [h])
    else Decidable.isFalse (by intro hc; cases hc; exact h rfl)
  | Except.error x, Except.error y =>
    if h : x = y then Decidable.isTrue (by rw [h])
    else Decidable.isFalse (by intro hc; cases hc; exact h rfl)
  | Except.ok _, Except.error _ => Decidable.isFalse (by intro hc; cases hc)
  | Except.error _, Except.ok _ => Decidable.isFalse (by intro hc; cases hc)

/-- `struct TranslationResult { direction, source_text, started_at, result }`
(the message a background translation unit sends over the channel). -/
structure TranslationResult where
  direction : TranslateDirection
  source_text : List Char
  started_at : ℕ
  result : Except (List Char) (List Char)
deriving DecidableEq

/-- The fields of `struct App` read or written by the live-suggestion engine
and its callers (`process_translation`, `apply_translation_result`,
`mark_edit`, `reset_translation_state`, the add-view key handlers, and the
mode flag that gates them).  `translation_api : Bool` records whether the
`Option<Arc<TranslationApi>>` is `Some`; the remaining `App` fields (import
and review bookkeeping) are untouched by these paths and omitted. -/
structure AppState where
  mode : Mode
  dutch_input : List Char
  english_input : List Char
  add_field : AddField
  message : Option (List Char)
  translation_api : Bool
  translation_in_flight : Bool
  pending_translation : Option PendingTranslation
  last_edit_field : Option AddField
  last_edit_dutch_at : Option ℕ
  last_edit_english_at : Option ℕ
  last_translated_dutch_source : Option (List Char)
  last_translated_english_source : Option (List Char)
deriving DecidableEq

/-- `App::new`: the initial editor state (mode starts at `AddWord`). -/
def AppState.init (api : Bool) : AppState :=
  { mode := Mode.AddWord, dutch_input := [], english_input := [],
    add_field := AddField.Dutch, message := none, translation_api := api,
    translation_in_flight := false, pending_translation := none,
    last_edit_field := none, last_edit_dutch_at := none,
    last_edit_english_at := none, last_translated_dutch_source := none,
    last_translated_english_source := none }

/-- `App::mark_edit(field)` at clock time `now`. -/
def mark_edit (a : AppState) (field : AddField) (now : ℕ) : AppState :=
  let a := { a with last_edit_field := some field }
  match field with
  | AddField.Dutch => { a with last_edit_dutch_at := some now }
  | AddField.English => { a with last_edit_english_at := some now }

/-- `App::reset_translation_state`. -/
def reset_translation_state (a : AppState) : AppState :=
  { a with translation_in_flight := false, pending_translation := none,
           last_edit_field := none, last_edit_dutch_at := none,
           last_edit_english_at := none, last_translated_dutch_source := none,
           last_translated_english_source := none }

/-- `App::reset_add_fields` (the `Esc` handler of the add view, also called
when entering the view): clear both inputs and the message, then
`reset_translation_state`. -/
def reset_add_fields (a : AppState) : AppState :=
  reset_translation_state { a with dutch_input := [], english_input := [], message := none }

/-- `App::clear_add_inputs` (after a successful save): clear both inputs,
then `reset_translation_state`. -/
def clear_add_inputs (a : AppState) : AppState :=
  reset_translation_state { a with dutch_input := [], english_input := [] }

/-- `App::push_add_char(ch)`: append to the active field and `mark_edit`. -/
def push_add_char (a : AppState) (ch : Char) (now : ℕ) : AppState :=
  let a := match a.add_field with
    | AddField.Dutch => { a with dutch_input := a.dutch_input ++ [ch] }
    | AddField.English => { a with english_input := a.english_input ++ [ch] }
  mark_edit a a.add_field now

/-- `App::pop_add_char`: drop the last character of the active field
(`String::pop`) and `mark_edit`. -/
def pop_add_char (a : AppState) (now : ℕ) : AppState :=
  let a := match a.add_field with
    | AddField.Dutch => { a with dutch_input := a.dutch_input.dropLast }
    | AddField.English => { a with english_input := a.english_input.dropLast }
  mark_edit a a.add_field now

/-- `App::toggle_add_field`. -/
def toggle_add_field (a : AppState) : AppState :=
  { a with add_field := match a.add_field with
      | AddField.Dutch => AddField.English
      | AddField.English => AddField.Dutch }

/-- `App::apply_translation_result(result)`: correlate an arrived outcome
with the pending request (`Option::take` consumes the pending slot even when
the outcome is then discarded), reject stale outcomes (mismatched direction
or source text, target edited after the request started, live source text no
longer equal to the snapshot), and otherwise write the suggestion into the
target field recording the idempotence bookkeeping, or surface a failure
message. -/
def apply_translation_result (a : AppState) (result : TranslationResult) : AppState :=
  match a.pending_translation with
  | none => a
  | some pending =>
    let a := { a with pending_translation := none }
    if pending.direction ≠ result.direction || pending.source_text ≠ result.source_text then a
    else
      let target_edit := match result.direction with
        | TranslateDirection.DutchToEnglish => a.last_edit_english_at
        | TranslateDirection.EnglishToDutch => a.last_edit_dutch_at
      let target_was_edited := match target_edit with
        | some edited_at => decide (edited_at > pending.started_at)
        | none => false
      if target_was_edited then a
      else
        let current_source := match result.direction with
          | TranslateDirection.DutchToEnglish => rustTrim a.dutch_input
          | TranslateDirection.EnglishToDutch => rustTrim a.english_input
        if current_source ≠ pending.source_text then a
        else
          match result.result with
          | Except.ok translated =>
            match result.direction with
            | TranslateDirection.DutchToEnglish =>
              { a with english_input := translated,
                       last_translated_dutch_source := some pending.source_text }
            | TranslateDirection.EnglishToDutch =>
              { a with dutch_input := translated,
                       last_translated_english_source := some pending.source_text }
          | Except.error err =>
            { a with message := some (("Translation failed: ".data) ++ err) }

/-- A spawned background translation call that has not yet sent its outcome:
the immutable snapshot it owns. -/
structure SpawnedCall where
  direction : TranslateDirection
  source_text : List Char
  started_at : ℕ
deriving DecidableEq

/-- The live-suggestion system: the owned `App` state, the mpsc channel
contents (`queue`, FIFO), the spawned background calls whose outcomes are
still unsent (`outstanding`), and a ghost counter of `thread::spawn` calls
(`spawns`, used only to state theorems). -/
structure SysState where
  app : AppState
  queue : List TranslationResult
  outstanding : List SpawnedCall
  spawns : ℕ
deriving DecidableEq

/-- The initial system: fresh `App`, empty channel, no background calls. -/
def SysState.init (api : Bool) : SysState :=
  { app := AppState.init api, queue := [], outstanding := [], spawns := 0 }

/-- The `try_recv` drain loop at the top of `process_translation`: for each
arrived message, clear `translation_in_flight` and apply the outcome; the
loop ends on `Empty`. -/
def drainQueue (a : AppState) (queue : List TranslationResult) : AppState :=
  queue.foldl
    (fun a result => apply_translation_result { a with translation_in_flight := false } result)
    a

/-- `App::process_translation` at clock time `now` (the body of `App::tick`):
drain the channel, then start a new request only if no request is in flight,
the API capability is configured, the editor is in the word-entry view, the
most-recently-edited field has a debounce timestamp at least
`TRANSLATE_DEBOUNCE_MS = 400` ms old, its trimmed text is non-empty and
differs from the text last successfully translated for that field.  Starting
a request snapshots the pending translation, marks `translation_in_flight`,
and spawns a background call. -/
def process_translation (s : SysState) (now : ℕ) : SysState :=
  let a := drainQueue s.app s.queue
  let s := { s with app := a, queue := [] }
  if a.translation_in_flight || !a.translation_api || a.mode ≠ Mode.AddWord then s
  else
    match a.last_edit_field with
    | none => s
    | some field =>
      let source_text := match field with
        | AddField.Dutch => a.dutch_input
        | AddField.English => a.english_input
      let direction := match field with
        | AddField.Dutch => TranslateDirection.DutchToEnglish
        | AddField.English => TranslateDirection.EnglishToDutch
      let last_edit_at := match field with
        | AddField.Dutch => a.last_edit_dutch_at
        | AddField.English => a.last_edit_english_at
      let last_translated_source := match field with
        | AddField.Dutch => a.last_translated_dutch_source
        | AddField.English => a.last_translated_english_source
      match last_edit_at with
      | none => s
      | some t =>
        if now - t < 400 then s
        else
          let source_trimmed := rustTrim source_text
          if source_trimmed.isEmpty then s
          else if last_translated_source = some source_trimmed then s
          else
            { s with
              app := { a with
                translation_in_flight := true,
                pending_translation :=
                  some { direction := direction, source_text := source_trimmed,
                         started_at := now } },
              outstanding := s.outstanding ++
                [{ direction := direction, source_text := source_trimmed,
                   started_at := now }],
              spawns := s.spawns + 1 }

/-- The events driving the editor session: key input in the add view
(characters, backspace, tab, escape), the successful-save clearing, entering
the add view (`start_add`, which resets the fields), plain mode switches, the
fixed-cadence tick, and delivery of a background call outcome into the
channel (`send i res`: the `i`-th outstanding call completes with `res`). -/
inductive Event where
  | keyChar (ch : Char) (now : ℕ)
  | keyBackspace (now : ℕ)
  | keyTab
  | keyEsc
  | saveClear
  | enterAdd
  | setMode (m : Mode)
  | tick (now : ℕ)
  | send (i : ℕ) (res : Except (List Char) (List Char))
deriving DecidableEq

/-- One transition of the system.  Key events act only in the add view (the
dispatcher routes keys by mode); `send` moves an outstanding call's outcome
into the channel. -/
def stepEvent (s : SysState) : Event → SysState
  | Event.keyChar ch now =>
    if s.app.mode = Mode.AddWord then { s with app := push_add_char s.app ch now } else s
  | Event.keyBackspace now =>
    if s.app.mode = Mode.AddWord then { s with app := pop_add_char s.app now } else s
  | Event.keyTab =>
    if s.app.mode = Mode.AddWord then { s with app := toggle_add_field s.app } else s
  | Event.keyEsc =>
    if s.app.mode = Mode.AddWord then { s with app := reset_add_fields s.app } else s
  | Event.saveClear =>
    if s.app.mode = Mode.AddWord then { s with app := clear_add_inputs s.app } else s
  | Event.enterAdd =>
    let a := reset_add_fields s.app
    { s with app := { a with mode := Mode.AddWord, add_field := AddField.Dutch } }
  | Event.setMode m => { s with app := { s.app with mode := m } }
  | Event.tick now => process_translation s now
  | Event.send i res =>
    match s.outstanding.get? i with
    | none => s
    | some call =>
      { s with
        queue := s.queue ++
          [{ direction := call.direction, source_text := call.source_text,
             started_at := call.started_at, result := res }],
        outstanding := s.outstanding.eraseIdx i }

/-- Run a trace of events from a state. -/
def runEvents (s : SysState) (events : List Event) : SysState :=
  events.foldl stepEvent s

/-- The number of requests that are unresolved in the sense of claim C2:
spawned, but their outcome not yet drained by the UI loop (still unsent, or
sitting in the channel). -/
def unresolvedCount (s : SysState) : ℕ :=
  s.outstanding.length + s.queue.length

/-- Classifies the events whose handlers call `reset_translation_state`
(escape in the add view, the post-save clearing, entering the add view). -/
def isResetEvent : Event → Bool
  | Event.keyEsc => true
  | Event.saveClear => true
  | Event.enterAdd => true
  | _ => false

/-- The text of the given input field. -/
def fieldInput (a : AppState) : AddField → List Char
  | AddField.Dutch => a.dutch_input
  | AddField.English => a.english_input

/-- The debounce timestamp of the given input field. -/
def fieldEditAt (a : AppState) : AddField → Option ℕ
  | AddField.Dutch => a.last_edit_dutch_at
  | AddField.English => a.last_edit_english_at

/-- The last-successfully-translated source record of the given field. -/
def fieldLastTranslated (a : AppState) : AddField → Option (List Char)
  | AddField.Dutch => a.last_translated_dutch_source
  | AddField.English => a.last_translated_english_source

/-- The guard of claim C8, at the state the tick handler consults after
draining the channel: no request in flight, editor in the word-entry view, a
most-recently-edited field whose debounce timestamp is at least 400 ms in the
past, whose trimmed text is non-empty and differs from the text last
successfully translated for that field. -/
def StartGuard (a : AppState) (now : ℕ) : Prop :=
  a.translation_in_flight = false ∧ a.mode = Mode.AddWord ∧
  ∃ field, a.last_edit_field = some field ∧
    ∃ t, fieldEditAt a field = some t ∧ 400 ≤ now - t ∧
      rustTrim (fieldInput a field) ≠ [] ∧
      fieldLastTranslated a field ≠ some (rustTrim (fieldInput a field))

/-- Consecutive debounce gaps of an edit trace: true when each edit follows
the previous one in strictly less than `bound` milliseconds. -/
def gapsLT (bound : ℕ) : List (Char × ℕ) → Bool
  | [] => true
  | [_] => true
  | p :: q :: rest => decide (q.2 - p.2 < bound) && gapsLT bound (q :: rest)

/-- The heading conditions exactly as claim C7 words them, evaluated on a
given text: non-empty, none of the four separator characters, first character
uppercase, no other character uppercase, and the size test (`1.15` times the
median for multi-word text, `0.8` times for single-word text). -/
def headingCriteria (text : List Char) (height m : ℚ) : Bool :=
  !text.isEmpty &&
  !(containsChar text ',' || containsChar text '-' ||
    containsChar text '(' || containsChar text ')') &&
  (match text with
   | [] => false
   | first :: rest => rustIsUppercase first && !(rest.any rustIsUppercase)) &&
  (if containsChar text ' ' then decide (height ≥ m * (115/100))
   else decide (height ≥ m * (8/10)))

/-- The heading-group description exactly as claim C10 words it: strip a
leading `"- "` or a single leading space, replace every `'.'` with `','`,
remove all trailing `':'` characters, and trim surrounding whitespace. -/
def headingGroupSpec (s : List Char) : List Char :=
  let s1 := if ('-' :: ' ' :: []).isPrefixOf s then s.drop 2
            else if (' ' :: []).isPrefixOf s then s.drop 1
            else s
  rustTrim (trimEndMatches ':' (replaceChar '.' ',' s1))

/-- The relations the source sorts by (`sort_by` on `partial_cmp`, total on
the rational embedding) are total and transitive, as the sortedness lemmas
require. -/
instance : IsTotal LineEntry (fun a b => a.x ≤ b.x) :=
  ⟨fun a b => le_total a.x b.x⟩

instance : IsTrans LineEntry (fun a b => a.x ≤ b.x) :=
  ⟨fun _ _ _ hab hbc => le_trans hab hbc⟩

instance : IsTotal ColumnBucket (fun a b => a.center ≤ b.center) :=
  ⟨fun a b => le_total a.center b.center⟩

instance : IsTrans ColumnBucket (fun a b => a.center ≤ b.center) :=
  ⟨fun _ _ _ hab hbc => le_trans hab hbc⟩

/-! ## Theorems for the claims -/

/-- C9: for every state with a current `PendingRequest` and every arriving
`TranslationOutcome` whose direction or source text differs from the pending
request's, processing that outcome leaves both input fields and both
last-translated-source records unchanged: no suggestion is written. -/
theorem C9_stale_result_frame (a : AppState) (p : PendingTranslation)
    (r : TranslationResult) (hp : a.pending_translation = some p)
    (hmism : p.direction ≠ r.direction ∨ p.source_text ≠ r.source_text) :
    (apply_translation_result a r).dutch_input = a.dutch_input ∧
    (apply_translation_result a r).english_input = a.english_input ∧
    (apply_translation_result a r).last_translated_dutch_source
      = a.last_translated_dutch_source ∧
    (apply_translation_result a r).last_translated_english_source
      = a.last_translated_english_source := by
  unfold apply_translation_result
  rw [hp]
  dsimp only
  have hcond : (decide (p.direction ≠ r.direction) || decide (p.source_text ≠ r.source_text))
      = true := by
    rcases hmism with h | h <;> simp [h]
  rw [if_pos hcond]
  exact ⟨rfl, rfl, rfl, rfl⟩

/-- Witness for C9 at a concrete state: a pending request for `"huis"` and an
arriving outcome for `"haus"` (same direction, different source text). -/
theorem C9_stale_result_frame_witness :
    (apply_translation_result
        { AppState.init true with
            dutch_input := ("huis".data),
            pending_translation :=
              some { direction := TranslateDirection.DutchToEnglish,
                     source_text := ("huis".data), started_at := 0 } }
        { direction := TranslateDirection.DutchToEnglish,
          source_text := ("haus".data), started_at := 0,
          result := Except.ok ("house".data) }).dutch_input = ("huis".data) ∧
    (apply_translation_result
        { AppState.init true with
            dutch_input := ("huis".data),
            pending_translation :=
              some { direction := TranslateDirection.DutchToEnglish,
                     source_text := ("huis".data), started_at := 0 } }
        { direction := TranslateDirection.DutchToEnglish,
          source_text := ("haus".data), started_at := 0,
          result := Except.ok ("house".data) }).english_input = [] ∧
    (apply_translation_result
        { AppState.init true with
            dutch_input := ("huis".data),
            pending_translation :=
              some { direction := TranslateDirection.DutchToEnglish,
                     source_text := ("huis".data), started_at := 0 } }
        { direction := TranslateDirection.DutchToEnglish,
          source_text := ("haus".data), started_at := 0,
          result := Except.ok ("house".data) }).last_translated_dutch_source = none := by
  have h := C9_stale_result_frame
    { AppState.init true with
        dutch_input := ("huis".data),
        pending_translation :=
          some { direction := TranslateDirection.DutchToEnglish,
                 source_text := ("huis".data), started_at := 0 } }
    { direction := TranslateDirection.DutchToEnglish,
      source_text := ("huis".data), started_at := 0 }
    { direction := TranslateDirection.DutchToEnglish,
      source_text := ("haus".data), started_at := 0,
      result := Except.ok ("house".data) }
    rfl (Or.inr (by decide))
  exact ⟨h.1, h.2.1, h.2.2.1⟩

/-! ### List and string toolkit lemmas -/

theorem dropWhile_eq_self_of_length {α} {p : α → Bool} {l : List α}
    (h : (l.dropWhile p).length = l.length) : l.dropWhile p = l := by
  cases l with
  | nil => rfl
  | cons x xs =>
    by_cases hx : p x = true
    · exfalso
      rw [List.dropWhile_cons, if_pos hx] at h
      have hle := (List.dropWhile_sublist (l := xs) p).length_le
      simp only [List.length_cons] at h
      omega
    · rw [List.dropWhile_cons, if_neg hx]

theorem trimLeft_length_le (s : List Char) : (trimLeft s).length ≤ s.length :=
  (List.dropWhile_sublist (l := s) rustIsWhitespace).length_le

theorem trimRight_length_le (s : List Char) : (trimRight s).length ≤ s.length := by
  unfold trimRight
  rw [List.length_reverse]
  have := (List.dropWhile_sublist (l := s.reverse) rustIsWhitespace).length_le
  rw [List.length_reverse] at this
  exact this

theorem trimLeft_eq_self_of_trim {s : List Char} (h : rustTrim s = s) : trimLeft s = s := by
  have hlen : s.length ≤ (trimLeft s).length := by
    have h1 := trimRight_length_le (trimLeft s)
    calc s.length = (rustTrim s).length := by rw [h]
    _ = (trimRight (trimLeft s)).length := rfl
    _ ≤ (trimLeft s).length := h1
  exact dropWhile_eq_self_of_length (Nat.le_antisymm (trimLeft_length_le s) hlen)

theorem trimRight_eq_self_of_trim {s : List Char} (h : rustTrim s = s) : trimRight s = s := by
  have h1 := trimLeft_eq_self_of_trim h
  calc trimRight s = trimRight (trimLeft s) := by rw [h1]
  _ = rustTrim s := rfl
  _ = s := h

theorem head_not_ws_of_trimLeft_eq {c : Char} {t : List Char}
    (h : trimLeft (c :: t) = c :: t) : rustIsWhitespace c = false := by
  by_contra hc
  rw [Bool.not_eq_false] at hc
  unfold trimLeft at h
  rw [List.dropWhile_cons, if_pos hc] at h
  have := (List.dropWhile_sublist (l := t) rustIsWhitespace).length_le
  have h2 : (t.dropWhile rustIsWhitespace).length = t.length + 1 := by
    rw [h]; rfl
  omega

theorem replaceChar_eq_self {a b : Char} {s : List Char} (h : a ∉ s) :
    replaceChar a b s = s := by
  induction s with
  | nil => rfl
  | cons c cs ih =>
    rw [List.mem_cons, not_or] at h
    show (if c = a then b else c) :: replaceChar a b cs = c :: cs
    rw [if_neg (fun hc => h.1 hc.symm), ih h.2]

theorem stripLead_of_no_lead {p s : List Char} (h : p.isPrefixOf s = false) :
    stripLead p s = s := by
  unfold stripLead
  rw [h]
  rfl

theorem single_space_no_lead {s : List Char} (h : rustTrim s = s) :
    ((' ' :: []) : List Char).isPrefixOf s = false := by
  cases s with
  | nil => rfl
  | cons c t =>
    have hc := head_not_ws_of_trimLeft_eq (trimLeft_eq_self_of_trim h)
    by_cases hce : (' ' : Char) = c
    · exfalso
      rw [← hce] at hc
      simp [rustIsWhitespace] at hc
    · show ((' ' == c) && List.isPrefixOf [] t) = false
      simp [hce]

/-! ### C3: clearing a field -/

/-- C3 counterexample: emptying the Dutch field by deleting its only
character (backspace) leaves the debounce bookkeeping set — backspace records
a fresh edit timestamp instead of clearing it, so the claim's "by any means
the user can clear it, including deleting characters one by one" fails. -/
theorem C3_counterexample :
    (runEvents (SysState.init true)
        [Event.keyChar 'a' 0, Event.keyBackspace 5]).app.dutch_input = [] ∧
    (runEvents (SysState.init true)
        [Event.keyChar 'a' 0, Event.keyBackspace 5]).app.last_edit_dutch_at = some 5 ∧
    (runEvents (SysState.init true)
        [Event.keyChar 'a' 0, Event.keyBackspace 5]).app.last_edit_field
      = some AddField.Dutch := by
  decide

/-- C3 amended: the explicit clear operations (`reset_add_fields`, run by the
escape key and on entering the add view, and `clear_add_inputs`, run after a
successful save) empty both fields and clear all debounce timestamps and both
last-translated-source records; emptying a field one character at a time does
not (it records an edit, as the counterexample shows). -/
theorem C3_explicit_clear_resets (a : AppState) :
    (reset_add_fields a).dutch_input = [] ∧
    (reset_add_fields a).english_input = [] ∧
    (reset_add_fields a).translation_in_flight = false ∧
    (reset_add_fields a).pending_translation = none ∧
    (reset_add_fields a).last_edit_field = none ∧
    (reset_add_fields a).last_edit_dutch_at = none ∧
    (reset_add_fields a).last_edit_english_at = none ∧
    (reset_add_fields a).last_translated_dutch_source = none ∧
    (reset_add_fields a).last_translated_english_source = none ∧
    (clear_add_inputs a).dutch_input = [] ∧
    (clear_add_inputs a).english_input = [] ∧
    (clear_add_inputs a).translation_in_flight = false ∧
    (clear_add_inputs a).pending_translation = none ∧
    (clear_add_inputs a).last_edit_field = none ∧
    (clear_add_inputs a).last_edit_dutch_at = none ∧
    (clear_add_inputs a).last_edit_english_at = none ∧
    (clear_add_inputs a).last_translated_dutch_source = none ∧
    (clear_add_inputs a).last_translated_english_source = none := by
  exact ⟨rfl, rfl, rfl, rfl, rfl, rfl, rfl, rfl, rfl,
         rfl, rfl, rfl, rfl, rfl, rfl, rfl, rfl, rfl⟩

/-! ### C4: normalization idempotence -/

/-- C4 counterexample: the two-character string `" a"` has no leading `"- "`
and no `'.'`, yet `normalize_item_text` changes it (the function trims), so
the claim as stated fails. -/
theorem C4_counterexample :
    (('-' :: ' ' :: []) : List Char).isPrefixOf (' ' :: 'a' :: []) = false ∧
    ('.' ∉ (' ' :: 'a' :: [])) ∧
    normalize_item_text (' ' :: 'a' :: []) ≠ (' ' :: 'a' :: []) := by
  decide

/-- C4 amended: for every string with no surrounding whitespace (`trim`
fixes it), no leading `"- "` and no `'.'` character, `normalize_item_text`
returns it unchanged. -/
theorem C4_normalize_identity (s : List Char) (htrim : rustTrim s = s)
    (hdash : (('-' :: ' ' :: []) : List Char).isPrefixOf s = false)
    (hdot : '.' ∉ s) : normalize_item_text s = s := by
  unfold normalize_item_text
  rw [htrim]
  show replaceChar '.' ',' (rustTrim (stripLead (' ' :: []) (stripLead ('-' :: ' ' :: []) s))) = s
  rw [stripLead_of_no_lead hdash, stripLead_of_no_lead (single_space_no_lead htrim),
      htrim, replaceChar_eq_self hdot]

/-- Witness for C4 at the concrete already-normalized string `"kat"`. -/
theorem C4_normalize_identity_witness :
    rustTrim ('k' :: 'a' :: 't' :: []) = ('k' :: 'a' :: 't' :: []) ∧
    (('-' :: ' ' :: []) : List Char).isPrefixOf ('k' :: 'a' :: 't' :: []) = false ∧
    ('.' ∉ ('k' :: 'a' :: 't' :: [])) ∧
    normalize_item_text ('k' :: 'a' :: 't' :: []) = ('k' :: 'a' :: 't' :: []) :=
  ⟨by decide, by decide, by decide,
   C4_normalize_identity ('k' :: 'a' :: 't' :: []) (by decide) (by decide) (by decide)⟩

/-! ### Live-suggestion engine lemmas -/

theorem apply_translation_result_in_flight (a : AppState) (r : TranslationResult) :
    (apply_translation_result a r).translation_in_flight = a.translation_in_flight := by
  unfold apply_translation_result
  cases hp : a.pending_translation with
  | none => rfl
  | some p =>
    dsimp only
    repeat' split
    all_goals rfl

theorem drainQueue_in_flight (a : AppState) (q : List TranslationResult) :
    (drainQueue a q).translation_in_flight
      = if q.isEmpty then a.translation_in_flight else false := by
  induction q generalizing a with
  | nil => rfl
  | cons r rest ih =>
    show (drainQueue
        (apply_translation_result { a with translation_in_flight := false } r)
        rest).translation_in_flight = false
    rw [ih]
    split
    · rw [apply_translation_result_in_flight]
    · rfl

theorem process_translation_shape (s : SysState) (now : ℕ) :
    process_translation s now
        = { s with app := drainQueue s.app s.queue, queue := [] } ∨
    ((drainQueue s.app s.queue).translation_in_flight = false ∧
      ∃ d src,
        process_translation s now
          = { s with
              app := { drainQueue s.app s.queue with
                        translation_in_flight := true,
                        pending_translation :=
                          some { direction := d, source_text := src, started_at := now } },
              queue := [],
              outstanding := s.outstanding ++
                [{ direction := d, source_text := src, started_at := now }],
              spawns := s.spawns + 1 }) := by
  unfold process_translation
  dsimp only
  split
  · left; rfl
  · rename_i hguard
    have hif : (drainQueue s.app s.queue).translation_in_flight = false := by
      by_contra hc
      rw [Bool.not_eq_false] at hc
      simp [hc] at hguard
    cases hfld : (drainQueue s.app s.queue).last_edit_field with
    | none => left; rfl
    | some field =>
      dsimp only
      cases hat : (match field with
          | AddField.Dutch => (drainQueue s.app s.queue).last_edit_dutch_at
          | AddField.English => (drainQueue s.app s.queue).last_edit_english_at) with
      | none => left; rfl
      | some t =>
        dsimp only
        split
        · left; rfl
        · split
          · left; rfl
          · split
            · left; rfl
            · right
              exact ⟨hif, _, _, rfl⟩

theorem push_add_char_in_flight (a : AppState) (ch : Char) (now : ℕ) :
    (push_add_char a ch now).translation_in_flight = a.translation_in_flight := by
  unfold push_add_char mark_edit
  cases a.add_field <;> rfl

theorem pop_add_char_in_flight (a : AppState) (now : ℕ) :
    (pop_add_char a now).translation_in_flight = a.translation_in_flight := by
  unfold pop_add_char mark_edit
  cases a.add_field <;> rfl

/-- The inductive invariant behind claim C2 for reset-free traces: the number
of unresolved requests is exactly one when a request is tracked as in flight,
and zero otherwise. -/
def UnresolvedInv (s : SysState) : Prop :=
  unresolvedCount s = (if s.app.translation_in_flight then 1 else 0)

theorem stepEvent_send_facts (s : SysState) (i : ℕ) (res : Except (List Char) (List Char)) :
    unresolvedCount (stepEvent s (Event.send i res)) = unresolvedCount s ∧
    (stepEvent s (Event.send i res)).app = s.app := by
  simp only [stepEvent]
  cases hg : s.outstanding.get? i with
  | none => exact ⟨rfl, rfl⟩
  | some call =>
    dsimp only
    constructor
    · unfold unresolvedCount
      dsimp only
      have hlt : i < s.outstanding.length := (List.get?_eq_some.mp hg).1
      rw [List.length_eraseIdx, if_pos hlt, List.length_append]
      simp only [List.length_cons, List.length_nil]
      omega
    · rfl

theorem stepEvent_unresolved_inv (s : SysState) (e : Event)
    (hr : isResetEvent e = false) (h : UnresolvedInv s) :
    UnresolvedInv (stepEvent s e) := by
  unfold UnresolvedInv unresolvedCount at h
  cases e with
  | keyChar ch now =>
    unfold UnresolvedInv unresolvedCount
    simp only [stepEvent]
    split
    · rw [push_add_char_in_flight]; exact h
    · exact h
  | keyBackspace now =>
    unfold UnresolvedInv unresolvedCount
    simp only [stepEvent]
    split
    · rw [pop_add_char_in_flight]; exact h
    · exact h
  | keyTab =>
    unfold UnresolvedInv unresolvedCount
    simp only [stepEvent]
    split
    · exact h
    · exact h
  | keyEsc => simp [isResetEvent] at hr
  | saveClear => simp [isResetEvent] at hr
  | enterAdd => simp [isResetEvent] at hr
  | setMode m => exact h
  | tick now =>
    show UnresolvedInv (process_translation s now)
    rcases process_translation_shape s now with h1 | ⟨hif, d, src, h2⟩
    · rw [h1]
      unfold UnresolvedInv unresolvedCount
      dsimp only
      rw [drainQueue_in_flight]
      cases hq : s.queue with
      | nil =>
        rw [hq] at h
        simpa using h
      | cons r rest =>
        rw [hq] at h
        simp only [List.isEmpty_cons, Bool.false_eq_true, if_false, List.length_nil,
          List.length_cons, Nat.add_zero] at h ⊢
        cases hb : s.app.translation_in_flight <;> rw [hb] at h <;> simp at h <;> omega
    · rw [h2]
      unfold UnresolvedInv unresolvedCount
      dsimp only
      have hout : s.outstanding.length = 0 := by
        rw [drainQueue_in_flight] at hif
        cases hq : s.queue with
        | nil =>
          rw [hq] at hif h
          simp only [List.isEmpty_nil, if_true] at hif
          rw [hif] at h
          simpa using h
        | cons r rest =>
          rw [hq] at h
          cases hb : s.app.translation_in_flight <;> rw [hb] at h <;> simp at h <;> omega
      simp [hout]
  | send i res =>
    have hs := stepEvent_send_facts s i res
    unfold UnresolvedInv
    rw [hs.1, hs.2]
    exact h

/-! ### C2: at most one request in flight -/

/-- C2 counterexample: start a request (`tick 400` after editing), clear the
fields with escape (which resets `translation_in_flight` but cannot stop the
already-spawned background call), edit and debounce again — the engine starts
a second request while the first one's outcome is still undrained, so two
requests are unresolved at once. -/
theorem C2_counterexample :
    unresolvedCount (runEvents (SysState.init true)
      [Event.keyChar 'h' 0, Event.tick 400, Event.keyEsc,
       Event.keyChar 'x' 500, Event.tick 900]) = 2 ∧
    (runEvents (SysState.init true)
      [Event.keyChar 'h' 0, Event.tick 400, Event.keyEsc,
       Event.keyChar 'x' 500, Event.tick 900]).spawns = 2 := by
  decide

/-- C2 amended: in every reachable state of a trace that contains no
field-clearing/reset event (escape, post-save clear, or re-entering the add
view — the handlers that call `reset_translation_state`), at most one
request is unresolved at a time; a reset abandons the tracked request, after
which a new request may start while the abandoned one's outcome is still
undrained (the counterexample). -/
theorem C2_single_request_reset_free (api : Bool) (events : List Event)
    (hr : ∀ e ∈ events, isResetEvent e = false) :
    unresolvedCount (runEvents (SysState.init api) events) ≤ 1 := by
  have key : ∀ (evs : List Event) (s : SysState),
      (∀ e ∈ evs, isResetEvent e = false) → UnresolvedInv s →
      UnresolvedInv (runEvents s evs) := by
    intro evs
    induction evs with
    | nil => intro s _ h; exact h
    | cons e rest ih =>
      intro s hrs h
      exact ih (stepEvent s e) (fun x hx => hrs x (List.mem_cons_of_mem _ hx))
        (stepEvent_unresolved_inv s e (hrs e (List.mem_cons_self _ _)) h)
  have hinv := key events (SysState.init api) hr (by unfold UnresolvedInv; rfl)
  unfold UnresolvedInv at hinv
  rw [hinv]
  split <;> omega

/-- Witness for C2 (amended) on a concrete reset-free trace: one edit, then
two ticks. -/
theorem C2_single_request_reset_free_witness :
    unresolvedCount (runEvents (SysState.init true)
      [Event.keyChar 'h' 0, Event.tick 400, Event.tick 500]) ≤ 1 :=
  C2_single_request_reset_free true
    [Event.keyChar 'h' 0, Event.tick 400, Event.tick 500] (by decide)

/-! ### C8: debounce suppression and the start guard -/

theorem process_translation_spawn_guard (s : SysState) (now : ℕ)
    (h : (process_translation s now).spawns ≠ s.spawns) :
    StartGuard (drainQueue s.app s.queue) now := by
  unfold process_translation at h
  dsimp only at h
  split at h
  · exact absurd rfl h
  · rename_i hguard
    rw [Bool.or_assoc] at hguard
    simp only [Bool.or_eq_true, not_or, Bool.not_eq_true, Bool.not_eq_true',
      decide_eq_true_eq] at hguard
    obtain ⟨hif, hapi, hmode⟩ := hguard
    rw [Decidable.not_not] at hmode
    cases hfld : (drainQueue s.app s.queue).last_edit_field with
    | none => rw [hfld] at h; exact absurd rfl h
    | some field =>
      rw [hfld] at h
      cases field with
      | Dutch =>
        dsimp only at h
        cases hat : (drainQueue s.app s.queue).last_edit_dutch_at with
        | none => rw [hat] at h; exact absurd rfl h
        | some t =>
          rw [hat] at h
          dsimp only at h
          split at h
          · exact absurd rfl h
          · rename_i hdeb
            split at h
            · exact absurd rfl h
            · rename_i hempty
              split at h
              · exact absurd rfl h
              · rename_i hdiff
                exact ⟨hif, hmode, AddField.Dutch, hfld, t, hat, Nat.not_lt.mp hdeb,
                  fun hc => hempty (List.isEmpty_iff.mpr hc), hdiff⟩
      | English =>
        dsimp only at h
        cases hat : (drainQueue s.app s.queue).last_edit_english_at with
        | none => rw [hat] at h; exact absurd rfl h
        | some t =>
          rw [hat] at h
          dsimp only at h
          split at h
          · exact absurd rfl h
          · rename_i hdeb
            split at h
            · exact absurd rfl h
            · rename_i hempty
              split at h
              · exact absurd rfl h
              · rename_i hdiff
                exact ⟨hif, hmode, AddField.English, hfld, t, hat, Nat.not_lt.mp hdeb,
                  fun hc => hempty (List.isEmpty_iff.mpr hc), hdiff⟩

theorem runEvents_keyChars_facts (edits : List (Char × ℕ)) :
    ∀ (s : SysState),
      (runEvents s (edits.map (fun p => Event.keyChar p.1 p.2))).queue = s.queue ∧
      (runEvents s (edits.map (fun p => Event.keyChar p.1 p.2))).outstanding = s.outstanding ∧
      (runEvents s (edits.map (fun p => Event.keyChar p.1 p.2))).spawns = s.spawns ∧
      (runEvents s (edits.map (fun p => Event.keyChar p.1 p.2))).app.translation_in_flight
        = s.app.translation_in_flight := by
  induction edits with
  | nil => exact fun s => ⟨rfl, rfl, rfl, rfl⟩
  | cons p rest ih =>
    intro s
    show (runEvents (stepEvent s (Event.keyChar p.1 p.2))
        (rest.map (fun p => Event.keyChar p.1 p.2))).queue = s.queue ∧ _
    have hstep : (stepEvent s (Event.keyChar p.1 p.2)).queue = s.queue ∧
        (stepEvent s (Event.keyChar p.1 p.2)).outstanding = s.outstanding ∧
        (stepEvent s (Event.keyChar p.1 p.2)).spawns = s.spawns ∧
        (stepEvent s (Event.keyChar p.1 p.2)).app.translation_in_flight
          = s.app.translation_in_flight := by
      simp only [stepEvent]
      split
      · exact ⟨rfl, rfl, rfl, push_add_char_in_flight s.app p.1 p.2⟩
      · exact ⟨rfl, rfl, rfl, rfl⟩
    have hrec := ih (stepEvent s (Event.keyChar p.1 p.2))
    exact ⟨hrec.1.trans hstep.1, hrec.2.1.trans hstep.2.1,
           hrec.2.2.1.trans hstep.2.2.1, hrec.2.2.2.trans hstep.2.2.2⟩

theorem runEvents_ticks_spawns (ticks : List ℕ) :
    ∀ (s : SysState), s.queue = [] →
      ((s.app.translation_in_flight = false ∧ s.spawns = 0) ∨
       (s.app.translation_in_flight = true ∧ s.spawns ≤ 1)) →
      (runEvents s (ticks.map Event.tick)).spawns ≤ 1 := by
  induction ticks with
  | nil =>
    intro s _ hd
    show s.spawns ≤ 1
    rcases hd with ⟨_, h0⟩ | ⟨_, h1⟩
    · omega
    · exact h1
  | cons t rest ih =>
    intro s hq hd
    show (runEvents (process_translation s t) (rest.map Event.tick)).spawns ≤ 1
    have hdrain : drainQueue s.app s.queue = s.app := by rw [hq]; rfl
    rcases process_translation_shape s t with h1 | ⟨hif, d, src, h2⟩
    · rw [h1, hdrain]
      apply ih
      · rfl
      · rcases hd with ⟨ha, hb⟩ | ⟨ha, hb⟩
        · exact Or.inl ⟨ha, hb⟩
        · exact Or.inr ⟨ha, hb⟩
    · rw [hdrain] at hif
      have hsp0 : s.spawns = 0 := by
        rcases hd with ⟨_, hb⟩ | ⟨ha, _⟩
        · exact hb
        · rw [ha] at hif; cases hif
      rw [h2, hdrain]
      apply ih
      · rfl
      · refine Or.inr ⟨rfl, ?_⟩
        show s.spawns + 1 ≤ 1
        omega

/-- C8: N edits of the active field within less than the 400 ms debounce
interval of each other, followed by any number of ticks, start at most one
translation request; and every request start satisfies the guard — no request
in flight, word-entry view, the most-recently-edited field's timestamp at
least 400 ms old, its trimmed text non-empty and different from the text last
successfully translated for that field. -/
theorem C8_debounce_suppression (api : Bool) (edits : List (Char × ℕ)) (ticks : List ℕ)
    (hne : edits ≠ []) (hgap : gapsLT 400 edits = true) :
    (runEvents (SysState.init api)
        (edits.map (fun p => Event.keyChar p.1 p.2) ++ ticks.map Event.tick)).spawns ≤ 1 ∧
    (∀ (s : SysState) (now : ℕ),
        (process_translation s now).spawns ≠ s.spawns →
        StartGuard (drainQueue s.app s.queue) now) := by
  constructor
  · have happ : runEvents (SysState.init api)
        (edits.map (fun p => Event.keyChar p.1 p.2) ++ ticks.map Event.tick)
        = runEvents (runEvents (SysState.init api)
            (edits.map (fun p => Event.keyChar p.1 p.2))) (ticks.map Event.tick) := by
      unfold runEvents
      rw [List.foldl_append]
    rw [happ]
    have hfacts := runEvents_keyChars_facts edits (SysState.init api)
    apply runEvents_ticks_spawns
    · exact hfacts.1
    · exact Or.inl ⟨hfacts.2.2.2, hfacts.2.2.1⟩
  · exact fun s now h => process_translation_spawn_guard s now h

/-- Witness for C8: a single edit at `t = 0` followed by ticks at 400 and
500 ms. -/
theorem C8_debounce_suppression_witness :
    (runEvents (SysState.init true)
        ([(('h' : Char), (0 : ℕ))].map (fun p => Event.keyChar p.1 p.2) ++
         ([400, 500] : List ℕ).map Event.tick)).spawns ≤ 1 ∧
    (∀ (s : SysState) (now : ℕ),
        (process_translation s now).spawns ≠ s.spawns →
        StartGuard (drainQueue s.app s.queue) now) :=
  C8_debounce_suppression true [(('h' : Char), (0 : ℕ))] ([400, 500] : List ℕ)
    (by decide) (by decide)

/-! ### C7: heading classification -/

/-- C7 counterexample: the entry text `" Ab"` (a leading space) is classified
as a heading by the code, which trims the text before every check, while the
claim's conditions evaluated on the raw text reject it (its first character,
a space, is not uppercase) — so the claimed iff fails on untrimmed text. -/
theorem C7_counterexample :
    is_heading { text := (' ' :: 'A' :: 'b' :: []), x := 0, y_top := 0, height := 1 } 1
      = true ∧
    headingCriteria (' ' :: 'A' :: 'b' :: []) 1 1 = false := by
  with_unfolding_all decide

/-- C7 amended: an entry is classified as a heading iff the median height is
positive and the claim's conditions — non-empty, no `,`/`-`/`(`/`)`, first
character uppercase and no other uppercase, and the `1.15×`/`0.8×` median
size test — hold of the entry's *trimmed* text; in particular with median 0
no entry is ever a heading, exactly as the claim's degenerate clause says. -/
theorem C7_heading_iff (e : LineEntry) (m : ℚ) :
    (is_heading e m = true ↔
      (0 < m ∧ headingCriteria (rustTrim e.text) e.height m = true)) ∧
    (m = 0 → is_heading e m = false) := by
  have part1 : is_heading e m = true ↔
      (0 < m ∧ headingCriteria (rustTrim e.text) e.height m = true) := by
    unfold is_heading headingCriteria
    cases htext : rustTrim e.text with
    | nil => simp
    | cons c rest =>
      dsimp only
      by_cases hc : (containsChar (c :: rest) ',' || containsChar (c :: rest) '-' ||
          containsChar (c :: rest) '(' || containsChar (c :: rest) ')') = true
      · simp [hc]
      · rw [Bool.not_eq_true] at hc
        by_cases hu : rustIsUppercase c = true
        · by_cases ha : rest.any rustIsUppercase = true
          · simp [hc, hu, ha]
          · rw [Bool.not_eq_true] at ha
            by_cases hm : m > 0
            · simp [hc, hu, ha, hm]
            · have hm0 : ¬(0 < m) := hm
              simp [hc, hu, ha, hm, hm0]
        · rw [Bool.not_eq_true] at hu
          simp [hc, hu]
  refine ⟨part1, fun hm0 => ?_⟩
  rw [Bool.eq_false_iff]
  intro hc
  have := (part1.mp hc).1
  rw [hm0] at this
  exact lt_irrefl 0 this

/-! ### C1: the import's returned counts -/

/-- C1 counterexample: two successful imports — one that skips its single
item as a duplicate (internal counters `(0, 1)`), one that imports an empty
page (internal counters `(0, 0)`) — return the identical value `Ok 0`: the
return value is the inserted count alone and cannot carry the skipped count,
which the source only prints to stdout. -/
theorem C1_counterexample :
    (import_from_image (fun texts => Except.ok (texts.map (fun _ => 'x' :: [])))
        (Except.ok [{ text := ('k' :: 'a' :: 't' :: []),
                      bbox := { x := 1/10, y := 1/10, w := 2/10, h := 3/100 },
                      confidence := 9/10 }])
        ('C' :: 'h' :: []) none
        [{ text := ('k' :: 'a' :: 't' :: []), translation := ('c' :: 'a' :: 't' :: []),
           language := WordLanguage.Dutch, chapter := none, group := none }]).1
      = Except.ok 0 ∧
    (import_from_image (fun texts => Except.ok (texts.map (fun _ => 'x' :: [])))
        (Except.ok []) ('C' :: 'h' :: []) none []).1 = Except.ok 0 ∧
    (import_from_image_counts (fun texts => Except.ok (texts.map (fun _ => 'x' :: [])))
        (Except.ok [{ text := ('k' :: 'a' :: 't' :: []),
                      bbox := { x := 1/10, y := 1/10, w := 2/10, h := 3/100 },
                      confidence := 9/10 }])
        ('C' :: 'h' :: []) none
        [{ text := ('k' :: 'a' :: 't' :: []), translation := ('c' :: 'a' :: 't' :: []),
           language := WordLanguage.Dutch, chapter := none, group := none }]).1
      = Except.ok (0, 1) ∧
    (import_from_image_counts (fun texts => Except.ok (texts.map (fun _ => 'x' :: [])))
        (Except.ok []) ('C' :: 'h' :: []) none []).1 = Except.ok (0, 0) := by
  decide

/-- C1 amended: for every import call that completes without an
external-capability failure, `import_from_image` returns the inserted count
only; the skipped count is maintained internally (and printed), never
returned — the returned value is the first component of the internal counter
pair, and the store effect is identical. -/
theorem C1_returns_inserted_only (api : Translator)
    (ocr : Except (List Char) (List OcrLine)) (chapter : List Char)
    (ig : Option (List Char)) (db : Store) :
    (import_from_image api ocr chapter ig db).2
      = (import_from_image_counts api ocr chapter ig db).2 ∧
    (import_from_image api ocr chapter ig db).1
      = (import_from_image_counts api ocr chapter ig db).1.map Prod.fst := by
  unfold import_from_image import_from_image_counts
  cases ocr with
  | error e => exact ⟨rfl, rfl⟩
  | ok lines =>
    dsimp only
    by_cases hemp : (parse_grouped_items lines ig).isEmpty = true
    · rw [if_pos hemp, if_pos hemp]
      exact ⟨rfl, rfl⟩
    · rw [if_neg hemp, if_neg hemp]
      rcases hres : importLoop api chapter (chunksOf 25 (parse_grouped_items lines ig))
          (db, 0, 0) with ⟨res, dbf⟩
      cases res with
      | error e => exact ⟨rfl, rfl⟩
      | ok counts => exact ⟨rfl, rfl⟩

/-! ### C5: translation failure aborts the import, prior chunks persist -/

theorem processChunk_store_extends (chapter : List Char)
    (pairs : List (ImportItem × List Char)) :
    ∀ (st : Store × ℕ × ℕ), st.1 <+: (processChunk chapter pairs st).1 := by
  induction pairs with
  | nil => exact fun st => List.prefix_refl st.1
  | cons p rest ih =>
    rintro ⟨db, inserted, skipped⟩
    simp only [processChunk]
    split
    · exact ih (db, inserted, skipped + 1)
    · refine List.IsPrefix.trans ?_ (ih _)
      exact List.prefix_append db _
  
theorem importLoop_store_extends (api : Translator) (chapter : List Char) :
    ∀ (chunks : List (List ImportItem)) (st : Store × ℕ × ℕ),
      st.1 <+: (importLoop api chapter chunks st).2 := by
  intro chunks
  induction chunks with
  | nil => rintro ⟨db, inserted, skipped⟩; exact List.prefix_refl db
  | cons c rest ih =>
    rintro ⟨db, inserted, skipped⟩
    show (db : Store) <+:
      (match translate_batch_via_api api (c.map (fun it : ImportItem => it.text)) with
      | Except.error e => ((Except.error e, db) : Except (List Char) (ℕ × ℕ) × Store)
      | Except.ok translations =>
        importLoop api chapter rest (processChunk chapter (c.zip translations)
          (db, inserted, skipped))).2
    cases htr : translate_batch_via_api api (c.map (fun it : ImportItem => it.text)) with
    | error e => exact List.prefix_refl db
    | ok ts =>
      exact List.IsPrefix.trans
        (processChunk_store_extends chapter (c.zip ts) (db, inserted, skipped)) (ih _)

theorem importLoop_abort (api : Translator) (chapter : List Char) :
    ∀ (chunks : List (List ImportItem)) (i : ℕ) (db : Store) (ins skip : ℕ)
      (err : List Char),
      i < chunks.length →
      (∀ j, j < i →
        (translate_batch_via_api api ((chunks.getD j []).map (·.text))).isOk = true) →
      translate_batch_via_api api ((chunks.getD i []).map (·.text)) = Except.error err →
      ∃ n k F, importLoop api chapter (chunks.take i) (db, ins, skip)
          = (Except.ok (n, k), F) ∧
        importLoop api chapter chunks (db, ins, skip) = (Except.error err, F) := by
  intro chunks
  induction chunks with
  | nil =>
    intro i db ins skip err hi
    exact absurd hi (Nat.not_lt_zero i)
  | cons c rest ih =>
    intro i db ins skip err hi hok hfail
    cases i with
    | zero =>
      rw [List.getD_cons_zero] at hfail
      refine ⟨ins, skip, db, rfl, ?_⟩
      show (match translate_batch_via_api api (c.map (fun it : ImportItem => it.text)) with
        | Except.error e => ((Except.error e, db) : Except (List Char) (ℕ × ℕ) × Store)
        | Except.ok translations =>
          importLoop api chapter rest (processChunk chapter (c.zip translations)
            (db, ins, skip))) = (Except.error err, db)
      rw [hfail]
    | succ n =>
      have hc := hok 0 (Nat.succ_pos n)
      rw [List.getD_cons_zero] at hc
      obtain ⟨ts, hts⟩ : ∃ ts, translate_batch_via_api api (c.map (·.text))
          = Except.ok ts := by
        cases he : translate_batch_via_api api (c.map (·.text)) with
        | error e => rw [he] at hc; simp [Except.isOk, Except.toBool] at hc
        | ok ts => exact ⟨ts, rfl⟩
      rw [List.getD_cons_succ] at hfail
      rcases hst : processChunk chapter (c.zip ts) (db, ins, skip) with ⟨db2, ins2, skip2⟩
      obtain ⟨n2, k2, F, h1, h2⟩ := ih n db2 ins2 skip2 err (Nat.lt_of_succ_lt_succ hi)
        (fun j hj => by
          have := hok (j + 1) (Nat.succ_lt_succ hj)
          rwa [List.getD_cons_succ] at this)
        hfail
      refine ⟨n2, k2, F, ?_, ?_⟩
      · rw [List.take_succ_cons]
        show (match translate_batch_via_api api (c.map (fun it : ImportItem => it.text)) with
          | Except.error e => ((Except.error e, db) : Except (List Char) (ℕ × ℕ) × Store)
          | Except.ok translations =>
            importLoop api chapter (rest.take n) (processChunk chapter (c.zip translations)
              (db, ins, skip))) = (Except.ok (n2, k2), F)
        rw [hts]
        dsimp only
        rw [hst]
        exact h1
      · show (match translate_batch_via_api api (c.map (·.text)) with
          | Except.error e => ((Except.error e, db) : Except (List Char) (ℕ × ℕ) × Store)
          | Except.ok translations =>
            importLoop api chapter rest (processChunk chapter (c.zip translations)
              (db, ins, skip))) = (Except.error err, F)
        rw [hts]
        dsimp only
        rw [hst]
        exact h2

/-- C5: if the translation call for chunk `i` of an import fails (a failed
call or a count mismatch both surface as `Except.error` from
`translate_batch_via_api`), the import returns that failure; the final store
is exactly the store after processing the chunks before `i` (so nothing from
chunk `i` or any later chunk is inserted), and the store before the import is
a prefix of the final store (every earlier insertion persists). -/
theorem C5_translation_failure_aborts (api : Translator) (lines : List OcrLine)
    (chapter : List Char) (ig : Option (List Char)) (db : Store) (i : ℕ)
    (err : List Char)
    (hne : (parse_grouped_items lines ig).isEmpty = false)
    (hok : ∀ j, j < i →
      (translate_batch_via_api api
        (((chunksOf 25 (parse_grouped_items lines ig)).getD j []).map
          (fun it : ImportItem => it.text))).isOk = true)
    (hfail : translate_batch_via_api api
        (((chunksOf 25 (parse_grouped_items lines ig)).getD i []).map
          (fun it : ImportItem => it.text)) = Except.error err)
    (hi : i < (chunksOf 25 (parse_grouped_items lines ig)).length) :
    ∃ n k F,
      importLoop api chapter ((chunksOf 25 (parse_grouped_items lines ig)).take i)
          (db, 0, 0) = (Except.ok (n, k), F) ∧
      import_from_image api (Except.ok lines) chapter ig db = (Except.error err, F) ∧
      db <+: F := by
  obtain ⟨n, k, F, h1, h2⟩ := importLoop_abort api chapter
    (chunksOf 25 (parse_grouped_items lines ig)) i db 0 0 err hi hok hfail
  refine ⟨n, k, F, h1, ?_, ?_⟩
  · unfold import_from_image
    dsimp only
    rw [hne, if_neg (fun hc : (false = true) => Bool.false_ne_true hc)]
    rw [h2]
  · have := importLoop_store_extends api chapter
      ((chunksOf 25 (parse_grouped_items lines ig)).take i) (db, 0, 0)
    rw [h1] at this
    exact this

/-- Witness for C5: a one-line page whose single chunk's translation call
fails outright; the import returns the failure and the store is untouched. -/
theorem C5_translation_failure_aborts_witness :
    ∃ n k F,
      importLoop (fun _ => Except.error ('b' :: 'o' :: 'o' :: 'm' :: []))
          ('C' :: 'h' :: [])
          ((chunksOf 25 (parse_grouped_items
            [{ text := ('k' :: 'a' :: 't' :: []),
               bbox := { x := 1/10, y := 1/10, w := 2/10, h := 3/100 },
               confidence := 9/10 }] none)).take 0) ([], 0, 0)
        = (Except.ok (n, k), F) ∧
      import_from_image (fun _ => Except.error ('b' :: 'o' :: 'o' :: 'm' :: []))
          (Except.ok [{ text := ('k' :: 'a' :: 't' :: []),
                        bbox := { x := 1/10, y := 1/10, w := 2/10, h := 3/100 },
                        confidence := 9/10 }])
          ('C' :: 'h' :: []) none []
        = (Except.error ('b' :: 'o' :: 'o' :: 'm' :: []), F) ∧
      ([] : Store) <+: F :=
  C5_translation_failure_aborts
    (fun _ => Except.error ('b' :: 'o' :: 'o' :: 'm' :: []))
    [{ text := ('k' :: 'a' :: 't' :: []),
       bbox := { x := 1/10, y := 1/10, w := 2/10, h := 3/100 },
       confidence := 9/10 }]
    ('C' :: 'h' :: []) none [] 0 ('b' :: 'o' :: 'o' :: 'm' :: [])
    (by decide)
    (fun j hj => absurd hj (Nat.not_lt_zero j))
    (by decide)
    (by decide)

/-! ### C6: the column clusterer -/

theorem bestBucketAux_eq (x : ℚ) :
    ∀ (cols : List ColumnBucket) (idx : ℕ) (best : Option (ℕ × ℚ)),
      bestBucketAux x idx best cols =
        match specBest x cols, best with
        | none, b => b
        | some (j, e), none => some (idx + j, e)
        | some (j, e), some q => if e < q.2 then some (idx + j, e) else some q := by
  intro cols
  induction cols with
  | nil =>
    intro idx best
    cases best with
    | none => rfl
    | some q => rfl
  | cons c rest ih =>
    intro idx best
    have hstep : bestBucketAux x idx best (c :: rest)
        = bestBucketAux x (idx + 1)
            (match best with
             | none => some (idx, |x - c.center|)
             | some q => if |x - c.center| < q.2 then some (idx, |x - c.center|)
                         else best) rest := rfl
    rw [hstep, ih]
    cases best with
    | none =>
      cases hs : specBest x rest with
      | none =>
        simp only [specBest, hs]
        simp
      | some je =>
        obtain ⟨j, e⟩ := je
        simp only [specBest, hs]
        by_cases h1 : |x - c.center| ≤ e
        · rw [if_pos h1, if_neg (not_lt.mpr h1)]
          simp
        · rw [if_neg h1, if_pos (not_le.mp h1)]
          have : idx + 1 + j = idx + (j + 1) := by omega
          rw [this]
    | some q =>
      obtain ⟨qi, qd⟩ := q
      cases hs : specBest x rest with
      | none =>
        simp only [specBest, hs]
        dsimp only
        split
        · rfl
        · rfl
      | some je =>
        obtain ⟨j, e⟩ := je
        simp only [specBest, hs]
        dsimp only
        by_cases hdq : |x - c.center| < qd
        · rw [if_pos hdq]
          dsimp only
          by_cases hde : |x - c.center| ≤ e
          · rw [if_pos hde]
            dsimp only
            rw [if_neg (not_lt.mpr hde), if_pos hdq]
            simp
          · rw [if_neg hde]
            dsimp only
            have hed : e < |x - c.center| := not_le.mp hde
            rw [if_pos hed, if_pos (lt_trans hed hdq)]
            have hidx : idx + 1 + j = idx + (j + 1) := by omega
            rw [hidx]
        · rw [if_neg hdq]
          dsimp only
          by_cases hde : |x - c.center| ≤ e
          · rw [if_pos hde]
            dsimp only
            by_cases heq : e < qd
            · exact absurd (lt_of_le_of_lt hde heq) hdq
            · rw [if_neg heq, if_neg hdq]
          · rw [if_neg hde]
            dsimp only
            by_cases heq : e < qd
            · rw [if_pos heq, if_pos heq]
              have hidx : idx + 1 + j = idx + (j + 1) := by omega
              rw [hidx]
            · rw [if_neg heq, if_neg heq]

theorem bestBucket_eq_specBest (x : ℚ) (cols : List ColumnBucket) :
    bestBucket x cols = specBest x cols := by
  unfold bestBucket
  rw [bestBucketAux_eq]
  cases hs : specBest x cols with
  | none => rfl
  | some je =>
    obtain ⟨j, e⟩ := je
    simp

theorem specBest_spec (x : ℚ) :
    ∀ (cols : List ColumnBucket) (j : ℕ) (e : ℚ),
      specBest x cols = some (j, e) →
      j < cols.length ∧
      e = |x - (cols.getD j { center := 0, lines := [] }).center| ∧
      (∀ k, k < cols.length →
        e ≤ |x - (cols.getD k { center := 0, lines := [] }).center|) ∧
      (∀ k, k < j → e < |x - (cols.getD k { center := 0, lines := [] }).center|) := by
  intro cols
  induction cols with
  | nil => intro j e h; cases h
  | cons c rest ih =>
    intro j e h
    cases hs : specBest x rest with
    | none =>
      have hrest : ∀ j2 e2, ¬ specBest x rest = some (j2, e2) := by
        intro j2 e2 hc
        rw [hs] at hc
        cases hc
      rw [show specBest x (c :: rest)
          = (match specBest x rest with
             | none => some (0, |x - c.center|)
             | some (j, e) => if |x - c.center| ≤ e then some (0, |x - c.center|)
                              else some (j + 1, e)) from rfl, hs] at h
      dsimp only at h
      injection h with h
      injection h with h1 h2
      subst h1
      subst h2
      have hre : rest = [] := by
        cases hr : rest with
        | nil => rfl
        | cons r rs =>
          exfalso
          cases hs2 : specBest x (r :: rs) with
          | none =>
            rw [show specBest x (r :: rs)
                = (match specBest x rs with
                   | none => some (0, |x - r.center|)
                   | some (j, e) => if |x - r.center| ≤ e then some (0, |x - r.center|)
                                    else some (j + 1, e)) from rfl] at hs2
            cases hs3 : specBest x rs with
            | none => rw [hs3] at hs2; cases hs2
            | some je =>
              rw [hs3] at hs2
              obtain ⟨j2, e2⟩ := je
              dsimp only at hs2
              split at hs2 <;> cases hs2
          | some je =>
            rw [hr] at hs
            rw [hs] at hs2
            cases hs2
      subst hre
      refine ⟨Nat.zero_lt_succ 0, rfl, ?_, ?_⟩
      · intro k hk
        have hk0 : k = 0 := by
          simp only [List.length_cons, List.length_nil] at hk
          omega
        subst hk0
        simp
      · intro k hk
        exact absurd hk (Nat.not_lt_zero k)
    | some je =>
      obtain ⟨j2, e2⟩ := je
      obtain ⟨hj2, he2, hmin2, hstrict2⟩ := ih j2 e2 hs
      rw [show specBest x (c :: rest)
          = (match specBest x rest with
             | none => some (0, |x - c.center|)
             | some (j, e) => if |x - c.center| ≤ e then some (0, |x - c.center|)
                              else some (j + 1, e)) from rfl, hs] at h
      dsimp only at h
      by_cases hde : |x - c.center| ≤ e2
      · rw [if_pos hde] at h
        injection h with h
        injection h with h1 h2
        subst h1
        subst h2
        refine ⟨Nat.zero_lt_succ _, by simp, ?_, ?_⟩
        · intro k hk
          cases k with
          | zero => simp
          | succ k2 =>
            rw [List.getD_cons_succ]
            exact le_trans hde (hmin2 k2 (Nat.lt_of_succ_lt_succ hk))
        · intro k hk
          exact absurd hk (Nat.not_lt_zero k)
      · rw [if_neg hde] at h
        injection h with h
        injection h with h1 h2
        subst h1
        subst h2
        have hlt : e2 < |x - c.center| := not_le.mp hde
        refine ⟨Nat.succ_lt_succ hj2, by rw [List.getD_cons_succ]; exact he2, ?_, ?_⟩
        · intro k hk
          cases k with
          | zero => rw [List.getD_cons_zero]; exact le_of_lt hlt
          | succ k2 =>
            rw [List.getD_cons_succ]
            exact hmin2 k2 (Nat.lt_of_succ_lt_succ hk)
        · intro k hk
          cases k with
          | zero => rw [List.getD_cons_zero]; exact hlt
          | succ k2 =>
            rw [List.getD_cons_succ]
            exact hstrict2 k2 (Nat.lt_of_succ_lt_succ hk)

theorem specBest_nil_of_none (x : ℚ) :
    ∀ (cols : List ColumnBucket), specBest x cols = none → cols = [] := by
  intro cols h
  cases cols with
  | nil => rfl
  | cons c rest =>
    exfalso
    rw [show specBest x (c :: rest)
        = (match specBest x rest with
           | none => some (0, |x - c.center|)
           | some (j, e) => if |x - c.center| ≤ e then some (0, |x - c.center|)
                            else some (j + 1, e)) from rfl] at h
    cases hs : specBest x rest with
    | none => rw [hs] at h; cases h
    | some je =>
      obtain ⟨j, e⟩ := je
      rw [hs] at h
      dsimp only at h
      split at h <;> cases h

theorem clusterStep_cases (cols : List ColumnBucket) (e : LineEntry) :
    (∃ j, j < cols.length ∧
      |e.x - (cols.getD j { center := 0, lines := [] }).center| ≤ 8/100 ∧
      (∀ k, k < cols.length →
        |e.x - (cols.getD j { center := 0, lines := [] }).center|
          ≤ |e.x - (cols.getD k { center := 0, lines := [] }).center|) ∧
      (∀ k, k < j →
        |e.x - (cols.getD j { center := 0, lines := [] }).center|
          < |e.x - (cols.getD k { center := 0, lines := [] }).center|) ∧
      clusterStep cols e = updateAt j (fun b =>
        { center := (b.center * b.lines.length + e.x) / (b.lines.length + 1),
          lines := b.lines ++ [e] }) cols) ∨
    ((∀ k, k < cols.length →
        ¬(|e.x - (cols.getD k { center := 0, lines := [] }).center| ≤ 8/100)) ∧
      clusterStep cols e = cols ++ [{ center := e.x, lines := [e] }]) := by
  unfold clusterStep
  rw [bestBucket_eq_specBest]
  cases hs : specBest e.x cols with
  | none =>
    right
    have hnil := specBest_nil_of_none e.x cols hs
    subst hnil
    exact ⟨fun k hk => absurd hk (Nat.not_lt_zero k), rfl⟩
  | some jd =>
    obtain ⟨j, d⟩ := jd
    obtain ⟨hj, hd, hmin, hstrict⟩ := specBest_spec e.x cols j d hs
    dsimp only
    by_cases hth : d ≤ 8/100
    · left
      subst hd
      refine ⟨j, hj, hth, hmin, hstrict, ?_⟩
      rw [if_pos hth]
      rfl
    · right
      subst hd
      refine ⟨?_, ?_⟩
      · intro k hk hc
        exact hth (le_trans (hmin k hk) hc)
      · rw [if_neg hth]
        rfl

theorem updateAt_mem {α} (f : α → α) :
    ∀ (l : List α) (i : ℕ) (b : α), b ∈ updateAt i f l → b ∈ l ∨ ∃ c, c ∈ l ∧ b = f c := by
  intro l
  induction l with
  | nil =>
    intro i b h
    cases i with
    | zero =>
      rw [show updateAt 0 f ([] : List α) = [] from rfl] at h
      cases h
    | succ n =>
      rw [show updateAt (n + 1) f ([] : List α) = [] from rfl] at h
      cases h
  | cons a rest ih =>
    intro i b h
    cases i with
    | zero =>
      rw [show updateAt 0 f (a :: rest) = f a :: rest from rfl] at h
      rcases List.mem_cons.mp h with h1 | h1
      · exact Or.inr ⟨a, List.mem_cons_self a rest, h1⟩
      · exact Or.inl (List.mem_cons_of_mem a h1)
    | succ n =>
      rw [show updateAt (n + 1) f (a :: rest) = a :: updateAt n f rest from rfl] at h
      rcases List.mem_cons.mp h with h1 | h1
      · exact Or.inl (h1 ▸ List.mem_cons_self a rest)
      · rcases ih n b h1 with h2 | ⟨c, hc1, hc2⟩
        · exact Or.inl (List.mem_cons_of_mem a h2)
        · exact Or.inr ⟨c, List.mem_cons_of_mem a hc1, hc2⟩

theorem clusterStep_lines_sublist (cols : List ColumnBucket) (e : LineEntry)
    (P : List LineEntry) (h : ∀ b ∈ cols, b.lines.Sublist P) :
    ∀ b ∈ clusterStep cols e, b.lines.Sublist (P ++ [e]) := by
  intro b hb
  unfold clusterStep at hb
  rcases hmatch : bestBucket e.x cols with _ | ⟨idx, d⟩
  · rw [hmatch] at hb
    dsimp only at hb
    rcases List.mem_append.mp hb with h1 | h1
    · exact List.Sublist.trans (h b h1) (List.sublist_append_left P [e])
    · rcases List.mem_cons.mp h1 with h2 | h2
      · subst h2
        exact List.sublist_append_right P [e]
      · cases h2
  · rw [hmatch] at hb
    dsimp only at hb
    split at hb
    · rcases updateAt_mem (fun b => b.add e) cols idx b hb with h1 | ⟨c, hc1, hc2⟩
      · exact List.Sublist.trans (h b h1) (List.sublist_append_left P [e])
      · subst hc2
        exact List.Sublist.append (h c hc1) (List.Sublist.refl [e])
    · rcases List.mem_append.mp hb with h1 | h1
      · exact List.Sublist.trans (h b h1) (List.sublist_append_left P [e])
      · rcases List.mem_cons.mp h1 with h2 | h2
        · subst h2
          exact List.sublist_append_right P [e]
        · cases h2

theorem clusterFold_lines_sublist :
    ∀ (L : List LineEntry) (cols : List ColumnBucket) (P : List LineEntry),
      (∀ b ∈ cols, b.lines.Sublist P) →
      ∀ b ∈ L.foldl clusterStep cols, b.lines.Sublist (P ++ L) := by
  intro L
  induction L with
  | nil =>
    intro cols P h b hb
    rw [List.append_nil]
    exact h b hb
  | cons e rest ih =>
    intro cols P h b hb
    rw [show (e :: rest).foldl clusterStep cols = rest.foldl clusterStep (clusterStep cols e)
        from rfl] at hb
    have hstep := clusterStep_lines_sublist cols e P h
    have := ih (clusterStep cols e) (P ++ [e]) hstep b hb
    rwa [List.append_assoc, List.singleton_append] at this

/-- C6: the Column Clusterer (i) processes the entries in ascending-`x` order
(a stable sort / permutation of the input), (ii) assigns each entry to the
existing bucket whose running centroid is nearest when that distance is at
most `0.08`, updating that bucket's centroid as the incremental mean
`(center·n + x)/(n + 1)` and appending the member, and otherwise opens a new
bucket, (iii) returns the buckets sorted by final centroid ascending, with
`split_into_columns` projecting their member lists, and (iv) each bucket's
member list preserves the order in which members were assigned (it is a
subsequence of the processing order). -/
theorem C6_column_clusterer (entries : List LineEntry) :
    (entries.insertionSort (fun a b => a.x ≤ b.x)).Perm entries ∧
    List.Sorted (fun a b : LineEntry => a.x ≤ b.x)
      (entries.insertionSort (fun a b => a.x ≤ b.x)) ∧
    (∀ (cols : List ColumnBucket) (e : LineEntry),
      (∃ j, j < cols.length ∧
        |e.x - (cols.getD j { center := 0, lines := [] }).center| ≤ 8/100 ∧
        (∀ k, k < cols.length →
          |e.x - (cols.getD j { center := 0, lines := [] }).center|
            ≤ |e.x - (cols.getD k { center := 0, lines := [] }).center|) ∧
        (∀ k, k < j →
          |e.x - (cols.getD j { center := 0, lines := [] }).center|
            < |e.x - (cols.getD k { center := 0, lines := [] }).center|) ∧
        clusterStep cols e = updateAt j (fun b =>
          { center := (b.center * b.lines.length + e.x) / (b.lines.length + 1),
            lines := b.lines ++ [e] }) cols) ∨
      ((∀ k, k < cols.length →
          ¬(|e.x - (cols.getD k { center := 0, lines := [] }).center| ≤ 8/100)) ∧
        clusterStep cols e = cols ++ [{ center := e.x, lines := [e] }])) ∧
    List.Sorted (fun a b : ColumnBucket => a.center ≤ b.center)
      (split_into_columns_buckets entries) ∧
    split_into_columns entries
      = (split_into_columns_buckets entries).map (fun b => b.lines) ∧
    (∀ bucket ∈ split_into_columns entries,
      bucket.Sublist (entries.insertionSort (fun a b => a.x ≤ b.x))) := by
  refine ⟨List.perm_insertionSort _ entries,
          List.sorted_insertionSort _ entries,
          fun cols e => clusterStep_cases cols e,
          ?_, rfl, ?_⟩
  · unfold split_into_columns_buckets
    exact List.sorted_insertionSort _ _
  · intro bucket hb
    unfold split_into_columns split_into_columns_buckets at hb
    rcases List.mem_map.mp hb with ⟨c, hc, rfl⟩
    have hcin : c ∈ (entries.insertionSort (fun a b => a.x ≤ b.x)).foldl clusterStep [] :=
      (List.perm_insertionSort _ _).mem_iff.mp hc
    have := clusterFold_lines_sublist (entries.insertionSort (fun a b => a.x ≤ b.x))
      [] [] (fun b hb2 => absurd hb2 (List.not_mem_nil b)) c hcin
    rwa [List.nil_append] at this

/-! ### C10: heading groups -/

theorem dropWhile_idem {α} (p : α → Bool) (l : List α) :
    (l.dropWhile p).dropWhile p = l.dropWhile p := by
  induction l with
  | nil => rfl
  | cons a t ih =>
    rw [List.dropWhile_cons]
    by_cases ha : p a = true
    · rw [if_pos ha]; exact ih
    · rw [if_neg ha, List.dropWhile_cons, if_neg ha]

theorem trimLeft_idem (u : List Char) : trimLeft (trimLeft u) = trimLeft u :=
  dropWhile_idem rustIsWhitespace u

theorem trimRight_idem (u : List Char) : trimRight (trimRight u) = trimRight u := by
  unfold trimRight
  rw [List.reverse_reverse, dropWhile_idem]

theorem trim_trimLeft (u : List Char) : rustTrim (trimLeft u) = rustTrim u := by
  unfold rustTrim
  rw [trimLeft_idem]

theorem revDrop_cons (p : Char → Bool) (a : Char) (l : List Char) :
    ((a :: l).reverse.dropWhile p).reverse
      = if (l.reverse.dropWhile p).reverse = [] then (if p a = true then [] else [a])
        else a :: (l.reverse.dropWhile p).reverse := by
  rw [List.reverse_cons, List.dropWhile_append]
  by_cases hc : l.reverse.dropWhile p = []
  · rw [if_pos (List.isEmpty_iff.mpr hc), if_pos (by rw [hc]; rfl)]
    by_cases hpa : p a = true
    · rw [if_pos hpa]
      rw [show List.dropWhile p [a] = [] from by rw [List.dropWhile_cons, if_pos hpa]; rfl]
      rfl
    · rw [if_neg hpa]
      rw [show List.dropWhile p [a] = [a] from by rw [List.dropWhile_cons, if_neg hpa]]
      rfl
  · rw [if_neg (fun h2 => hc (List.isEmpty_iff.mp h2)),
        if_neg (fun h2 => hc (by
          have := congrArg List.reverse h2
          rwa [List.reverse_reverse] at this))]
    rw [List.reverse_append]
    rfl

theorem trimRight_cons (a : Char) (l : List Char) :
    trimRight (a :: l)
      = if trimRight l = [] then (if rustIsWhitespace a = true then [] else [a])
        else a :: trimRight l :=
  revDrop_cons rustIsWhitespace a l

theorem trimEndMatches_cons (ch a : Char) (l : List Char) :
    trimEndMatches ch (a :: l)
      = if trimEndMatches ch l = [] then (if a = ch then [] else [a])
        else a :: trimEndMatches ch l := by
  have h := revDrop_cons (· = ch) a l
  unfold trimEndMatches
  rw [h]
  by_cases hc : (l.reverse.dropWhile (· = ch)).reverse = []
  · rw [if_pos hc, if_pos hc]
    by_cases hpa : a = ch
    · rw [if_pos (decide_eq_true hpa), if_pos hpa]
    · rw [if_neg (fun h2 => hpa (of_decide_eq_true h2)), if_neg hpa]
  · rw [if_neg hc, if_neg hc]

theorem ws_replaceChar (c : Char) :
    rustIsWhitespace (if c = '.' then ',' else c) = rustIsWhitespace c := by
  by_cases hc : c = '.'
  · subst hc
    rw [if_pos rfl]
    decide
  · rw [if_neg hc]

theorem replace_trimLeft (s : List Char) :
    replaceChar '.' ',' (trimLeft s) = trimLeft (replaceChar '.' ',' s) := by
  induction s with
  | nil => rfl
  | cons c t ih =>
    show replaceChar '.' ',' (List.dropWhile rustIsWhitespace (c :: t))
      = trimLeft ((if c = '.' then ',' else c) :: replaceChar '.' ',' t)
    rw [List.dropWhile_cons]
    unfold trimLeft
    rw [List.dropWhile_cons, ws_replaceChar]
    by_cases hw : rustIsWhitespace c = true
    · rw [if_pos hw, if_pos hw]
      exact ih
    · rw [if_neg hw, if_neg hw]
      rfl

theorem ws_colon_ne (a : Char) (hwa : rustIsWhitespace a = true) : ¬(a = ':') := by
  intro hc
  subst hc
  simp [rustIsWhitespace] at hwa

theorem trimLeft_cons_ws {a : Char} (t : List Char) (hwa : rustIsWhitespace a = true) :
    trimLeft (a :: t) = trimLeft t := by
  unfold trimLeft
  rw [List.dropWhile_cons, if_pos hwa]

theorem trimLeft_cons_not_ws {a : Char} (t : List Char)
    (hwa : rustIsWhitespace a = false) : trimLeft (a :: t) = a :: t := by
  unfold trimLeft
  rw [List.dropWhile_cons, if_neg (by rw [hwa]; exact Bool.false_ne_true)]

theorem trimEC_trimLeft (u : List Char) :
    trimEndMatches ':' (trimLeft u) = trimLeft (trimEndMatches ':' u) := by
  induction u with
  | nil => rfl
  | cons a t ih =>
    by_cases hwa : rustIsWhitespace a = true
    · rw [trimLeft_cons_ws t hwa, ih, trimEndMatches_cons]
      by_cases hc : trimEndMatches ':' t = []
      · rw [if_pos hc, if_neg (ws_colon_ne a hwa), trimLeft_cons_ws [] hwa, hc]
      · rw [if_neg hc, trimLeft_cons_ws _ hwa]
    · rw [Bool.not_eq_true] at hwa
      rw [trimLeft_cons_not_ws t hwa, trimEndMatches_cons]
      by_cases hc : trimEndMatches ':' t = []
      · rw [if_pos hc]
        by_cases hcol : a = ':'
        · rw [if_pos hcol]
          rfl
        · rw [if_neg hcol, trimLeft_cons_not_ws [] hwa]
      · rw [if_neg hc, trimLeft_cons_not_ws _ hwa]

theorem trimRight_suffix (u v : List Char) (h : trimRight (u ++ v) = u ++ v) :
    trimRight v = v := by
  cases v with
  | nil => rfl
  | cons c t =>
    have hdrop : (u ++ c :: t).reverse.dropWhile rustIsWhitespace = (u ++ c :: t).reverse := by
      have := congrArg List.reverse h
      unfold trimRight at this
      rwa [List.reverse_reverse] at this
    rw [List.reverse_append, List.dropWhile_append] at hdrop
    by_cases hc : (c :: t).reverse.dropWhile rustIsWhitespace = []
    · rw [if_pos (List.isEmpty_iff.mpr hc)] at hdrop
      exfalso
      have hlen := congrArg List.length hdrop
      have hle := (List.dropWhile_sublist (l := u.reverse) rustIsWhitespace).length_le
      rw [List.length_append, List.length_reverse, List.length_reverse] at hlen
      rw [List.length_reverse] at hle
      simp only [List.length_cons] at hlen
      omega
    · rw [if_neg (fun h2 => hc (List.isEmpty_iff.mp h2))] at hdrop
      have := List.append_cancel_right hdrop
      unfold trimRight
      rw [this, List.reverse_reverse]

theorem trim_of_noTrail (u : List Char) (h : trimRight u = u) :
    rustTrim u = trimLeft u := by
  have hsplit := List.takeWhile_append_dropWhile rustIsWhitespace u
  have h2 : trimRight (u.takeWhile rustIsWhitespace ++ trimLeft u)
      = u.takeWhile rustIsWhitespace ++ trimLeft u := by
    unfold trimLeft
    rw [hsplit]
    exact h
  exact trimRight_suffix _ _ h2

theorem trimLeft_trimRight_self (w : List Char) (hw : trimLeft w = w) :
    trimLeft (trimRight w) = trimRight w := by
  cases w with
  | nil => rfl
  | cons c t =>
    have hc : rustIsWhitespace c = false := head_not_ws_of_trimLeft_eq hw
    rw [trimRight_cons]
    by_cases ht : trimRight t = []
    · rw [if_pos ht, if_neg (by rw [hc]; exact Bool.false_ne_true)]
      exact trimLeft_cons_not_ws [] hc
    · rw [if_neg ht]
      exact trimLeft_cons_not_ws _ hc

theorem rustTrim_idem (u : List Char) : rustTrim (rustTrim u) = rustTrim u := by
  show rustTrim (trimRight (trimLeft u)) = trimRight (trimLeft u)
  have h1 : trimLeft (trimRight (trimLeft u)) = trimRight (trimLeft u) :=
    trimLeft_trimRight_self (trimLeft u) (trimLeft_idem u)
  show trimRight (trimLeft (trimRight (trimLeft u))) = trimRight (trimLeft u)
  rw [h1, trimRight_idem]

theorem stripLead_of_lead {p s : List Char} (h : p.isPrefixOf s = true) :
    stripLead p s = s.drop p.length := by
  unfold stripLead
  rw [h]
  rfl

theorem heading_group_eq_spec (s : List Char) (h : rustTrim s = s) :
    normalize_heading (normalize_item_text s) = headingGroupSpec s := by
  show rustTrim (trimEndMatches ':' (replaceChar '.' ','
      (rustTrim (stripLead (' ' :: []) (stripLead ('-' :: ' ' :: []) (rustTrim s))))))
    = rustTrim (trimEndMatches ':' (replaceChar '.' ','
      (if ('-' :: ' ' :: []).isPrefixOf s then s.drop 2
       else if (' ' :: []).isPrefixOf s then s.drop 1
       else s)))
  rw [h]
  by_cases hdash : (('-' :: ' ' :: []) : List Char).isPrefixOf s = true
  · rw [if_pos hdash, stripLead_of_lead hdash,
        show (('-' :: ' ' :: []) : List Char).length = 2 from rfl]
    obtain ⟨t2, rfl⟩ : ∃ t2, s = '-' :: ' ' :: t2 := by
      obtain ⟨t2, ht⟩ := List.isPrefixOf_iff_prefix.mp hdash
      exact ⟨t2, ht.symm⟩
    have htr : trimRight ('-' :: ' ' :: t2) = '-' :: ' ' :: t2 := trimRight_eq_self_of_trim h
    have ht2 : trimRight t2 = t2 := trimRight_suffix ('-' :: ' ' :: []) t2 htr
    have key : rustTrim (stripLead (' ' :: []) (('-' :: ' ' :: t2).drop 2)) = trimLeft t2 := by
      show rustTrim (stripLead (' ' :: []) t2) = trimLeft t2
      cases t2 with
      | nil => rfl
      | cons c t =>
        by_cases hsp : ((' ' :: []) : List Char).isPrefixOf (c :: t) = true
        · have hc : c = ' ' := by
            have : ((' ' == c) && List.isPrefixOf [] t) = true := hsp
            simp only [Bool.and_eq_true, beq_iff_eq] at this
            exact this.1.symm
          subst hc
          rw [stripLead_of_lead hsp]
          show rustTrim t = trimLeft (' ' :: t)
          have ht : trimRight t = t := trimRight_suffix (' ' :: []) t ht2
          rw [trim_of_noTrail t ht, trimLeft_cons_ws t (by decide)]
        · rw [Bool.not_eq_true] at hsp
          rw [stripLead_of_no_lead hsp]
          exact trim_of_noTrail (c :: t) ht2
    rw [key, replace_trimLeft, trimEC_trimLeft, trim_trimLeft]
    rfl
  · rw [Bool.not_eq_true] at hdash
    rw [stripLead_of_no_lead hdash]
    have hspf : ((' ' :: []) : List Char).isPrefixOf s = false := single_space_no_lead h
    rw [stripLead_of_no_lead hspf, h,
        if_neg (by rw [hdash]; exact Bool.false_ne_true),
        if_neg (by rw [hspf]; exact Bool.false_ne_true)]

/-- C10: (i) every entry reaching the classifier has trimmed text (the line
filter trims); (ii) a line classified as a heading establishes, as the group
for subsequent items, the heading text after item normalization followed by
heading normalization, and is not emitted as an item; (iii) on trimmed text
that composite equals the claim's description — leading `"- "` or a single
leading space stripped, every `'.'` replaced by `','`, all trailing `':'`
removed, surrounding whitespace trimmed — so a heading containing `'.'`
yields a group name with `','` in its place. -/
theorem C10_heading_group :
    (∀ (lines : List OcrLine) (e : LineEntry),
        e ∈ lines.filterMap lineEntryOf → rustTrim e.text = e.text) ∧
    (∀ (m : ℚ) (st : Option (List Char) × List ImportItem) (e : LineEntry),
        is_heading e m = true → normalize_item_text e.text ≠ [] →
        classifyStep m st e
          = (some (normalize_heading (normalize_item_text e.text)), st.2)) ∧
    (∀ s : List Char, rustTrim s = s →
        normalize_heading (normalize_item_text s) = headingGroupSpec s) := by
  refine ⟨?_, ?_, fun s hs => heading_group_eq_spec s hs⟩
  · intro lines e he
    rcases List.mem_filterMap.mp he with ⟨line, _, hline⟩
    unfold lineEntryOf at hline
    dsimp only at hline
    split at hline
    · cases hline
    · split at hline
      · cases hline
      · injection hline with hline
        subst hline
        exact rustTrim_idem line.text
  · intro m st e hh hne
    unfold classifyStep
    rw [if_neg (fun hcc : (normalize_item_text e.text).isEmpty = true =>
          hne (List.isEmpty_iff.mp hcc)),
        if_pos hh]

/-- Witness for C10 at concrete inputs: the single OCR line `"kat"`, and the
heading `"Dieren."` (median 1, height 1), whose group becomes `"Dieren,"`. -/
theorem C10_heading_group_witness :
    rustTrim { text := ('k' :: 'a' :: 't' :: []), x := (1/10 : ℚ),
               y_top := 1 - (1/10 + 3/100), height := (3/100 : ℚ) : LineEntry }.text
      = ({ text := ('k' :: 'a' :: 't' :: []), x := (1/10 : ℚ),
           y_top := 1 - (1/10 + 3/100), height := (3/100 : ℚ) : LineEntry }).text ∧
    classifyStep 1 (none, [])
        { text := ('D' :: 'i' :: 'e' :: 'r' :: 'e' :: 'n' :: '.' :: []),
          x := 0, y_top := 0, height := 1 }
      = (some (normalize_heading (normalize_item_text
          ('D' :: 'i' :: 'e' :: 'r' :: 'e' :: 'n' :: '.' :: []))), []) ∧
    normalize_heading (normalize_item_text
        ('D' :: 'i' :: 'e' :: 'r' :: 'e' :: 'n' :: '.' :: []))
      = headingGroupSpec ('D' :: 'i' :: 'e' :: 'r' :: 'e' :: 'n' :: '.' :: []) := by
  refine ⟨?_, ?_, ?_⟩
  · exact C10_heading_group.1
      [{ text := ('k' :: 'a' :: 't' :: []),
         bbox := { x := 1/10, y := 1/10, w := 2/10, h := 3/100 }, confidence := 9/10 }]
      _ (by with_unfolding_all decide)
  · exact C10_heading_group.2.1 1 (none, [])
      { text := ('D' :: 'i' :: 'e' :: 'r' :: 'e' :: 'n' :: '.' :: []),
        x := 0, y_top := 0, height := 1 }
      (by with_unfolding_all decide) (by decide)
  · exact C10_heading_group.2.2
      ('D' :: 'i' :: 'e' :: 'r' :: 'e' :: 'n' :: '.' :: []) (by decide)
